import Mathlib

/-!
Shallow embedding of the account-rotation core of the opencode-qwen-auth
repository: `src/plugin/account.ts`, `src/plugin/rotation.ts`, and the
retry/backoff classification inside `src/plugin.ts`.

JavaScript numbers are modelled as rationals (`ℚ`); all arithmetic in the
embedded code (addition, division by powers of ten, `Math.floor`,
`Math.min`/`Math.max`) is exact on the values the program manipulates.
Wall-clock reads (`Date.now()`) become explicit `now : ℚ` parameters.
Optional object fields become `Option`; a JS object spread
`\x7b...current, ...incoming\x7d` takes `incoming`'s field when it is
present (`some`) and keeps `current`'s otherwise.
-/

/-- `AccountHealth` from `src/plugin/account.ts`. -/
structure AccountHealth where
  successCount : ℚ
  failureCount : ℚ
  consecutiveFailures : ℚ
  lastSuccess : Option ℚ := none
  lastFailure : Option ℚ := none
  deriving Repr, DecidableEq

/-- `QwenAccount` from `src/plugin/account.ts`. -/
structure QwenAccount where
  refreshToken : String
  accessToken : Option String := none
  expires : Option ℚ := none
  resourceUrl : Option String := none
  addedAt : ℚ
  lastUsed : ℚ
  rateLimitResetAt : Option ℚ := none
  health : Option AccountHealth := none
  deriving Repr, DecidableEq

/-- `AccountStorage` from `src/plugin/account.ts`; `activeIndex` is a JS
integer, modelled as `ℤ` so the clamping in `normalizeStorage` is visible. -/
structure AccountStorage where
  version : Nat
  accounts : List QwenAccount
  activeIndex : ℤ
  deriving Repr, DecidableEq

/-- `RotationStrategy` from `src/plugin/account.ts` ("round-robin" | "sequential"). -/
inductive RotationStrategy where
  | roundRobin
  | sequential
  deriving Repr, DecidableEq

/-- `normalizeStorage`: drops accounts with a falsy `refreshToken` and clamps
`activeIndex` into `[0, accounts.length - 1]` (or `0` when empty). -/
def normalizeStorage (storage : AccountStorage) : AccountStorage :=
  let accounts := storage.accounts.filter (fun account => account.refreshToken ≠ "")
  let activeIndex : ℤ :=
    if 0 < accounts.length then
      min (max storage.activeIndex 0) ((accounts.length : ℤ) - 1)
    else 0
  { version := 1, accounts := accounts, activeIndex := activeIndex }

/-- The object spread `\x7b...current, ...account\x7d` used by `mergeAccounts`
and `upsertAccount`: incoming fields win where present. -/
def spreadAccount (current incoming : QwenAccount) : QwenAccount :=
  { refreshToken := incoming.refreshToken
    accessToken := incoming.accessToken.or current.accessToken
    expires := incoming.expires.or current.expires
    resourceUrl := incoming.resourceUrl.or current.resourceUrl
    addedAt := incoming.addedAt
    lastUsed := incoming.lastUsed
    rateLimitResetAt := incoming.rateLimitResetAt.or current.rateLimitResetAt
    health := incoming.health.or current.health }

/-- Insertion-ordered map (`Map<string, QwenAccount>`): `set` keeps the
original position of an existing key and appends a new key. -/
def mapSet (m : List (String × QwenAccount)) (k : String) (v : QwenAccount) :
    List (String × QwenAccount) :=
  if m.any (fun p => p.1 = k) then
    m.map (fun p => if p.1 = k then (k, v) else p)
  else m ++ [(k, v)]

/-- `Map.get`. -/
def mapGet (m : List (String × QwenAccount)) (k : String) : Option QwenAccount :=
  (m.find? (fun p => p.1 = k)).map (fun p => p.2)

/-- One step of `mergeAccounts`'s first loop:
`map.set(account.refreshToken, account)`. -/
def insStep (m : List (String × QwenAccount)) (account : QwenAccount) :
    List (String × QwenAccount) :=
  mapSet m account.refreshToken account

/-- One step of `mergeAccounts`'s second loop: merge with the current map
entry when the key exists, else insert. -/
def mergeStep (m : List (String × QwenAccount)) (account : QwenAccount) :
    List (String × QwenAccount) :=
  match mapGet m account.refreshToken with
  | some current =>
      mapSet m account.refreshToken
        { spreadAccount current account with
            lastUsed := max current.lastUsed account.lastUsed }
  | none => mapSet m account.refreshToken account

/-- `mergeAccounts` from `src/plugin/account.ts`: key by `refreshToken`; when
a key exists in both, spread existing then incoming and take the larger
`lastUsed`. -/
def mergeAccounts (existing incoming : AccountStorage) : AccountStorage :=
  let m0 := existing.accounts.foldl insStep []
  let m1 := incoming.accounts.foldl mergeStep m0
  normalizeStorage
    { version := 1, accounts := m1.map (fun p => p.2), activeIndex := incoming.activeIndex }

/-- `upsertAccount` from `src/plugin/account.ts`. -/
def upsertAccount (storage : AccountStorage) (account : QwenAccount) : AccountStorage :=
  match storage.accounts.findIdx? (fun item => item.refreshToken = account.refreshToken) with
  | none =>
      normalizeStorage
        { version := 1, accounts := storage.accounts ++ [account],
          activeIndex := storage.activeIndex }
  | some index =>
      let updated :=
        match storage.accounts.get? index with
        | some current =>
            storage.accounts.set index
              { spreadAccount current account with lastUsed := account.lastUsed }
        | none => storage.accounts
      normalizeStorage
        { version := 1, accounts := updated, activeIndex := storage.activeIndex }

/-- The partial update object passed to `updateAccount`. -/
structure AccountUpdate where
  refreshToken : Option String := none
  accessToken : Option String := none
  expires : Option ℚ := none
  resourceUrl : Option String := none
  lastUsed : Option ℚ := none
  rateLimitResetAt : Option ℚ := none
  health : Option AccountHealth := none
  deriving Repr

/-- Spread `\x7b...current, ...update\x7d` for a partial update. -/
def applyUpdate (current : QwenAccount) (update : AccountUpdate) : QwenAccount :=
  { refreshToken := update.refreshToken.getD current.refreshToken
    accessToken := update.accessToken.or current.accessToken
    expires := update.expires.or current.expires
    resourceUrl := update.resourceUrl.or current.resourceUrl
    addedAt := current.addedAt
    lastUsed := update.lastUsed.getD current.lastUsed
    rateLimitResetAt := update.rateLimitResetAt.or current.rateLimitResetAt
    health := update.health.or current.health }

/-- `updateAccount` from `src/plugin/account.ts`: returns the storage
unchanged when the index is out of range. -/
def updateAccount (storage : AccountStorage) (index : Nat) (update : AccountUpdate) :
    AccountStorage :=
  match storage.accounts.get? index with
  | none => storage
  | some current =>
      let accounts := storage.accounts.set index (applyUpdate current update)
      normalizeStorage
        { version := 1, accounts := accounts, activeIndex := storage.activeIndex }

/-- The skip test in `selectAccount`:
`account.rateLimitResetAt && account.rateLimitResetAt > now`
(a present value of `0` is falsy in JS). -/
def rateLimitSkip (account : QwenAccount) (now : ℚ) : Bool :=
  match account.rateLimitResetAt with
  | some v => v ≠ 0 ∧ now < v
  | none => false

/-- Result record of `selectAccount`. -/
structure SelectResult where
  account : QwenAccount
  index : Nat
  storage : AccountStorage
  deriving Repr

/-- `selectAccount` from `src/plugin/account.ts` (the round-robin /
sequential dispatcher): scan forward from the strategy's start index,
wrapping once, skipping rate-limited accounts; first hit wins and becomes
the new `activeIndex`. -/
def selectAccount (storage : AccountStorage) (strategy : RotationStrategy) (now : ℚ) :
    Option SelectResult :=
  let total := storage.accounts.length
  if total = 0 then none
  else
    let startIndex : Nat :=
      match strategy with
      | RotationStrategy.roundRobin => ((storage.activeIndex + 1) % (total : ℤ)).toNat
      | RotationStrategy.sequential => (min storage.activeIndex ((total : ℤ) - 1)).toNat
    let hit := ((List.range total).map (fun offset => (startIndex + offset) % total)).find?
      (fun index =>
        match storage.accounts.get? index with
        | some account => ! rateLimitSkip account now
        | none => false)
    match hit with
    | some index =>
        match storage.accounts.get? index with
        | some account =>
            some
              { account := account, index := index,
                storage := normalizeStorage
                  { version := 1, accounts := storage.accounts, activeIndex := (index : ℤ) } }
        | none => none
    | none => none

/-- `markRateLimited` from `src/plugin/account.ts` (`Date.now()` passed as `now`). -/
def markRateLimited (storage : AccountStorage) (index : Nat) (retryAfterMs now : ℚ) :
    AccountStorage :=
  updateAccount storage index { rateLimitResetAt := some (now + retryAfterMs) }

/-- `ensureHealth` from `src/plugin/account.ts`. -/
def ensureHealth (account : QwenAccount) : AccountHealth :=
  account.health.getD
    { successCount := 0, failureCount := 0, consecutiveFailures := 0 }

/-- `calculateHealthScore` from `src/plugin/account.ts`. -/
def calculateHealthScore (account : QwenAccount) : ℚ :=
  let health := ensureHealth account
  let total := health.successCount + health.failureCount
  if total = 0 then 1
  else
    let successRate := health.successCount / total
    let recencyPenalty := min (health.consecutiveFailures * (15 / 100)) (1 / 2)
    max 0 (successRate - recencyPenalty)

/-- Storage-level `recordSuccess` from `src/plugin/account.ts`. -/
def recordSuccess (storage : AccountStorage) (index : Nat) (now : ℚ) : AccountStorage :=
  match storage.accounts.get? index with
  | none => storage
  | some account =>
      let health := ensureHealth account
      updateAccount storage index
        { health := some
            { health with
                successCount := health.successCount + 1
                consecutiveFailures := 0
                lastSuccess := some now } }

/-- Storage-level `recordFailure` from `src/plugin/account.ts`. -/
def recordFailure (storage : AccountStorage) (index : Nat) (now : ℚ) : AccountStorage :=
  match storage.accounts.get? index with
  | none => storage
  | some account =>
      let health := ensureHealth account
      updateAccount storage index
        { health := some
            { health with
                failureCount := health.failureCount + 1
                consecutiveFailures := health.consecutiveFailures + 1
                lastFailure := some now } }

/-- `isAccountUsable` from `src/plugin/account.ts` (default threshold 0.2). -/
def isAccountUsable (account : QwenAccount) (threshold : ℚ := 1 / 5) : Prop :=
  threshold ≤ calculateHealthScore account

/-! ## Health score tracker (`src/plugin/rotation.ts`) -/

/-- `HealthScoreConfig` from `src/plugin/rotation.ts`. -/
structure HealthScoreConfig where
  initial : ℚ
  successReward : ℚ
  rateLimitPenalty : ℚ
  failurePenalty : ℚ
  recoveryRatePerHour : ℚ
  minUsable : ℚ
  maxScore : ℚ
  deriving Repr, DecidableEq

/-- `DEFAULT_HEALTH_SCORE_CONFIG` from `src/plugin/rotation.ts`. -/
def DEFAULT_HEALTH_SCORE_CONFIG : HealthScoreConfig :=
  { initial := 70, successReward := 1, rateLimitPenalty := -10,
    failurePenalty := -20, recoveryRatePerHour := 2, minUsable := 50,
    maxScore := 100 }

/-- `HealthScoreState` from `src/plugin/rotation.ts`. -/
structure HealthScoreState where
  score : ℚ
  lastUpdated : ℚ
  lastSuccess : ℚ
  consecutiveFailures : ℚ
  deriving Repr, DecidableEq

/-- `HealthScoreTracker` from `src/plugin/rotation.ts`: the private
`scores : Map<number, HealthScoreState>` plus the merged config. -/
structure HealthScoreTracker where
  scores : Nat → Option HealthScoreState
  config : HealthScoreConfig

/-- `new HealthScoreTracker(config)` with a full config. -/
def HealthScoreTracker.mk0 (config : HealthScoreConfig) : HealthScoreTracker :=
  { scores := fun _ => none, config := config }

/-- `HealthScoreTracker.getScore` (`Date.now()` passed as `now`). -/
def HealthScoreTracker.getScore (t : HealthScoreTracker) (now : ℚ) (accountIndex : Nat) : ℚ :=
  match t.scores accountIndex with
  | none => t.config.initial
  | some state =>
      let hoursSinceUpdate := (now - state.lastUpdated) / (1000 * 60 * 60)
      let recoveredPoints : ℤ := ⌊hoursSinceUpdate * t.config.recoveryRatePerHour⌋
      min t.config.maxScore (state.score + (recoveredPoints : ℚ))

/-- `HealthScoreTracker.recordSuccess`. -/
def HealthScoreTracker.recordSuccess (t : HealthScoreTracker) (now : ℚ) (accountIndex : Nat) :
    HealthScoreTracker :=
  let current := t.getScore now accountIndex
  { t with scores := fun j =>
      if j = accountIndex then
        some { score := min t.config.maxScore (current + t.config.successReward),
               lastUpdated := now, lastSuccess := now, consecutiveFailures := 0 }
      else t.scores j }

/-- `HealthScoreTracker.recordRateLimit`. -/
def HealthScoreTracker.recordRateLimit (t : HealthScoreTracker) (now : ℚ) (accountIndex : Nat) :
    HealthScoreTracker :=
  let state := t.scores accountIndex
  let current := t.getScore now accountIndex
  { t with scores := fun j =>
      if j = accountIndex then
        some { score := max 0 (current + t.config.rateLimitPenalty),
               lastUpdated := now,
               lastSuccess := (state.map (fun s => s.lastSuccess)).getD 0,
               consecutiveFailures := (state.map (fun s => s.consecutiveFailures)).getD 0 + 1 }
      else t.scores j }

/-- `HealthScoreTracker.recordFailure`. -/
def HealthScoreTracker.recordFailure (t : HealthScoreTracker) (now : ℚ) (accountIndex : Nat) :
    HealthScoreTracker :=
  let state := t.scores accountIndex
  let current := t.getScore now accountIndex
  { t with scores := fun j =>
      if j = accountIndex then
        some { score := max 0 (current + t.config.failurePenalty),
               lastUpdated := now,
               lastSuccess := (state.map (fun s => s.lastSuccess)).getD 0,
               consecutiveFailures := (state.map (fun s => s.consecutiveFailures)).getD 0 + 1 }
      else t.scores j }

/-! ## Token bucket tracker (`src/plugin/rotation.ts`) -/

/-- `TokenBucketConfig` from `src/plugin/rotation.ts`. -/
structure TokenBucketConfig where
  maxTokens : ℚ
  regenerationRatePerMinute : ℚ
  initialTokens : ℚ
  deriving Repr, DecidableEq

/-- `DEFAULT_TOKEN_BUCKET_CONFIG` from `src/plugin/rotation.ts`. -/
def DEFAULT_TOKEN_BUCKET_CONFIG : TokenBucketConfig :=
  { maxTokens := 50, regenerationRatePerMinute := 6, initialTokens := 50 }

/-- `TokenBucketState` from `src/plugin/rotation.ts`. -/
structure TokenBucketState where
  tokens : ℚ
  lastUpdated : ℚ
  deriving Repr, DecidableEq

/-- `TokenBucketTracker` from `src/plugin/rotation.ts`. -/
structure TokenBucketTracker where
  buckets : Nat → Option TokenBucketState
  config : TokenBucketConfig

/-- `new TokenBucketTracker(config)` with a full config. -/
def TokenBucketTracker.mk0 (config : TokenBucketConfig) : TokenBucketTracker :=
  { buckets := fun _ => none, config := config }

/-- `TokenBucketTracker.getTokens` (`Date.now()` passed as `now`): lazy
regeneration, not floored. -/
def TokenBucketTracker.getTokens (t : TokenBucketTracker) (now : ℚ) (accountIndex : Nat) : ℚ :=
  match t.buckets accountIndex with
  | none => t.config.initialTokens
  | some state =>
      let minutesSinceUpdate := (now - state.lastUpdated) / (1000 * 60)
      let recoveredTokens := minutesSinceUpdate * t.config.regenerationRatePerMinute
      min t.config.maxTokens (state.tokens + recoveredTokens)

/-- `TokenBucketTracker.consume`: returns the JS boolean result together
with the tracker after the call (state threading of the mutation). -/
def TokenBucketTracker.consume (t : TokenBucketTracker) (now : ℚ) (accountIndex : Nat)
    (cost : ℚ := 1) : Bool × TokenBucketTracker :=
  let current := t.getTokens now accountIndex
  if current < cost then (false, t)
  else
    (true,
      { t with buckets := fun j =>
          if j = accountIndex then some { tokens := current - cost, lastUpdated := now }
          else t.buckets j })

/-! ## Hybrid selection (`src/plugin/rotation.ts`) -/

/-- `AccountWithMetrics` from `src/plugin/rotation.ts`. -/
structure AccountWithMetrics where
  index : Nat
  lastUsed : ℚ
  healthScore : ℚ
  tokens : ℚ
  isRateLimited : Bool
  deriving Repr, DecidableEq

/-- `ScoreBreakdown` from `src/plugin/rotation.ts`. -/
structure ScoreBreakdown where
  health : ℚ
  tokens : ℚ
  freshness : ℚ
  deriving Repr, DecidableEq

/-- `HybridSelectionResult` from `src/plugin/rotation.ts`. -/
structure HybridSelectionResult where
  index : Nat
  score : ℚ
  breakdown : ScoreBreakdown
  deriving Repr, DecidableEq

/-- `calculateHybridScore` from `src/plugin/rotation.ts`
(`Date.now()` passed as `now`). -/
def calculateHybridScore (account : AccountWithMetrics) (maxTokens : ℚ) (now : ℚ) :
    ℚ × ScoreBreakdown :=
  let healthComponent := account.healthScore * 2
  let tokenComponent := account.tokens / maxTokens * 100 * 5
  let secondsSinceUsed := max 0 ((now - account.lastUsed) / 1000)
  let freshnessComponent := min secondsSinceUsed 3600 * (1 / 10)
  let score := max 0 (healthComponent + tokenComponent + freshnessComponent)
  (score, { health := healthComponent, tokens := tokenComponent,
            freshness := freshnessComponent })

/-- `Array.prototype.sort((a, b) => b.score - a.score)`: a stable
descending-by-score sort, modelled as left-to-right insertion where each
element lands after all earlier elements of greater-or-equal score. -/
def insertByScoreDesc (sorted : List HybridSelectionResult) (x : HybridSelectionResult) :
    List HybridSelectionResult :=
  match sorted with
  | [] => [x]
  | y :: ys => if x.score ≤ y.score then y :: insertByScoreDesc ys x else x :: y :: ys

/-- Stable descending sort by `score`. -/
def sortByScoreDesc (l : List HybridSelectionResult) : List HybridSelectionResult :=
  l.foldl insertByScoreDesc []

/-- `selectHybridAccount` from `src/plugin/rotation.ts`. -/
def selectHybridAccount (accounts : List AccountWithMetrics)
    (minHealthScore : ℚ := 50) (maxTokens : ℚ := 50) (now : ℚ := 0) :
    Option HybridSelectionResult :=
  let nonRateLimited := accounts.filter (fun acc => ! acc.isRateLimited)
  if nonRateLimited.length = 0 then none
  else
    let idealCandidates := nonRateLimited.filter
      (fun acc => minHealthScore ≤ acc.healthScore ∧ 1 ≤ acc.tokens)
    let candidatesToScore :=
      if 0 < idealCandidates.length then idealCandidates else nonRateLimited
    let scored := sortByScoreDesc (candidatesToScore.map
      (fun acc =>
        let r := calculateHybridScore acc maxTokens now
        { index := acc.index, score := r.1, breakdown := r.2 }))
    scored.head?

/-! ## Retry classification and backoff (`src/plugin.ts`) -/

/-- `RateLimitReason` from `src/plugin.ts`. -/
inductive RateLimitReason where
  | QUOTA_EXHAUSTED
  | RATE_LIMIT_EXCEEDED
  | SERVER_ERROR
  | UNKNOWN
  deriving Repr, DecidableEq

/-- `BACKOFF_TIERS` from `src/plugin.ts`. -/
def BACKOFF_TIERS : RateLimitReason → List ℚ
  | RateLimitReason.QUOTA_EXHAUSTED => [60000, 300000, 1800000]
  | RateLimitReason.RATE_LIMIT_EXCEEDED => [30000, 60000]
  | RateLimitReason.SERVER_ERROR => [20000, 40000]
  | RateLimitReason.UNKNOWN => [60000]

/-- `getBackoffMs` from `src/plugin.ts`: `tier[Math.min(n, tier.length - 1)]`. -/
def getBackoffMs (reason : RateLimitReason) (consecutiveFailures : Nat) : ℚ :=
  let tier := BACKOFF_TIERS reason
  tier.getD (min consecutiveFailures (tier.length - 1)) 0

/-- The response data the retry classification reads. The two retry headers
are modelled after `Number.parseInt`: `none` stands for an absent header or
one that does not parse to a number. -/
structure ResponseMeta where
  status : Nat
  retryAfterMsHeader : Option ℤ := none
  retryAfterHeader : Option ℤ := none
  xErrorCode : Option String := none
  deriving Repr

/-- `String.prototype.includes` for a non-empty pattern. -/
def strIncludes (s pat : String) : Bool := 1 < (s.splitOn pat).length

/-- `parseRateLimitReason` from `src/plugin.ts` (an empty header string is
falsy and behaves like an absent header). -/
def parseRateLimitReason (response : ResponseMeta) : RateLimitReason :=
  let statusBranch :=
    if 500 ≤ response.status then RateLimitReason.SERVER_ERROR
    else RateLimitReason.UNKNOWN
  match response.xErrorCode with
  | some errorHeader =>
      if errorHeader = "" then statusBranch
      else
        let upper := errorHeader.toUpper
        if strIncludes upper "QUOTA" then RateLimitReason.QUOTA_EXHAUSTED
        else if strIncludes upper "RATE" then RateLimitReason.RATE_LIMIT_EXCEEDED
        else if strIncludes upper "SERVER" || strIncludes upper "CAPACITY" then
          RateLimitReason.SERVER_ERROR
        else statusBranch
  | none => statusBranch

/-- `extractRetryAfterMs` from `src/plugin.ts`: a positive `retry-after-ms`
wins, else a positive `retry-after` in seconds times 1000, else null. -/
def extractRetryAfterMs (response : ResponseMeta) : Option ℚ :=
  let fromSeconds : Option ℚ :=
    match response.retryAfterHeader with
    | some v => if 0 < v then some ((v : ℚ) * 1000) else none
    | none => none
  match response.retryAfterMsHeader with
  | some v => if 0 < v then some (v : ℚ) else fromSeconds
  | none => fromSeconds

/-- The backoff duration the dispatch loop passes to `markRateLimited` for a
retryable response (`src/plugin.ts` lines 596-615):
`const retryAfterMs = headerMs ?? tieredMs`. -/
def retryBackoffMs (response : ResponseMeta) (attempts : Nat) : ℚ :=
  let headerMs := extractRetryAfterMs response
  let tieredMs := getBackoffMs (parseRateLimitReason response) attempts
  headerMs.getD tieredMs

/-! ## Hybrid strategy dispatcher (modelled from the spec) -/

/-- Modelled from the spec: the metrics view the hybrid branch of the
`selectAccount` dispatcher builds from storage plus trackers
(spec 4.4: `isRateLimited = rateLimitResetAtMs > now`). The hybrid branch
itself is absent from the sources; only the round-robin/sequential
dispatcher is present in `src/plugin/account.ts`. -/
def buildMetrics (storage : AccountStorage) (health : HealthScoreTracker)
    (tokens : TokenBucketTracker) (now : ℚ) : List AccountWithMetrics :=
  (List.range storage.accounts.length).filterMap
    (fun i =>
      (storage.accounts.get? i).map
        (fun account =>
          { index := i, lastUsed := account.lastUsed,
            healthScore := health.getScore now i,
            tokens := tokens.getTokens now i,
            isRateLimited :=
              match account.rateLimitResetAt with
              | some v => decide (now < v)
              | none => false }))

/-- Rotation of a list by `k` positions (`k` already reduced mod length). -/
def rotateList (l : List AccountWithMetrics) (k : Nat) : List AccountWithMetrics :=
  l.drop k ++ l.take k

/-- Result of the hybrid dispatcher: the selected account and index together
with the token tracker after the consume side effect. -/
structure HybridDispatchResult where
  account : QwenAccount
  index : Nat
  tokenTracker : TokenBucketTracker

/-- Modelled from the spec: the hybrid branch of `selectAccount`
(spec 4.4) — build the metrics view, rotate it by `pidOffset mod N`
before scoring, run `selectHybridAccount` (which is in
`src/plugin/rotation.ts`), and on success consume one token from the
winning account before returning. -/
def selectAccountHybrid (storage : AccountStorage) (health : HealthScoreTracker)
    (tokens : TokenBucketTracker) (pidOffset : Nat) (now : ℚ) :
    Option HybridDispatchResult :=
  let n := storage.accounts.length
  if n = 0 then none
  else
    let metrics := buildMetrics storage health tokens now
    let rotated := rotateList metrics (pidOffset % n)
    match selectHybridAccount rotated health.config.minUsable tokens.config.maxTokens now with
    | none => none
    | some r =>
        match storage.accounts.get? r.index with
        | none => none
        | some account =>
            some { account := account, index := r.index,
                   tokenTracker := (tokens.consume now r.index 1).2 }

/-- Iterated single-cost `consume` calls on one account index. -/
def consumeN (t : TokenBucketTracker) (now : ℚ) (i : Nat) : Nat → TokenBucketTracker
  | 0 => t
  | Nat.succ k => consumeN (t.consume now i 1).2 now i k

/-- The `activeIndex` invariant of `AccountStorage`. -/
def ActiveIndexInv (s : AccountStorage) : Prop :=
  (s.accounts.length = 0 → s.activeIndex = 0) ∧
  (s.accounts.length ≠ 0 → 0 ≤ s.activeIndex ∧ s.activeIndex ≤ (s.accounts.length : ℤ) - 1)

/-- The availability predicate scanned by `selectAccount`. -/
def selectPred (accounts : List QwenAccount) (now : ℚ) (index : Nat) : Bool :=
  match accounts.get? index with
  | some account => ! rateLimitSkip account now
  | none => false

/-- The head of a list is a maximum of its scores. -/
def HeadMax (l : List HybridSelectionResult) : Prop :=
  ∀ hd, l.head? = some hd → ∀ y ∈ l, y.score ≤ hd.score

/-- One recorded outcome kind. -/
inductive HealthEvent where
  | success
  | rateLimit
  | failure
  deriving Repr, DecidableEq

/-- Apply one tracker event at a given time. -/
def applyHealthEvent (t : HealthScoreTracker) (now : ℚ) (i : Nat) :
    HealthEvent → HealthScoreTracker
  | HealthEvent.success => t.recordSuccess now i
  | HealthEvent.rateLimit => t.recordRateLimit now i
  | HealthEvent.failure => t.recordFailure now i

/-- One call in a trace. -/
structure HealthCall where
  time : ℚ
  index : Nat
  event : HealthEvent

/-- Run a trace of record calls in order. -/
def runHealthTrace (t : HealthScoreTracker) : List HealthCall → HealthScoreTracker
  | [] => t
  | c :: rest => runHealthTrace (applyHealthEvent t c.time c.index c.event) rest

/-- Call times are nondecreasing starting from a lower bound. -/
def Chronological : ℚ → List HealthCall → Prop
  | _, [] => True
  | lo, c :: rest => lo ≤ c.time ∧ Chronological c.time rest

/-- The time of the last call (or the lower bound for an empty trace). -/
def traceEnd : ℚ → List HealthCall → ℚ
  | lo, [] => lo
  | _, c :: rest => traceEnd c.time rest

/-- Stored-state invariant: every stored score is within `[0, maxScore]`
and was written no later than the watermark. -/
def ScoresOK (t : HealthScoreTracker) (watermark : ℚ) : Prop :=
  ∀ i st, t.scores i = some st →
    0 ≤ st.score ∧ st.score ≤ t.config.maxScore ∧ st.lastUpdated ≤ watermark

/-- All entries of a map are keyed by their account's `refreshToken`. -/
def WellKeyed (m : List (String × QwenAccount)) : Prop :=
  ∀ p ∈ m, p.2.refreshToken = p.1

/-! ## Theorems -/

/-- Unfolding equation for `calculateHealthScore`. -/
theorem calculateHealthScore_eq (account : QwenAccount) :
    calculateHealthScore account =
      (if (ensureHealth account).successCount + (ensureHealth account).failureCount = 0 then 1
       else
        max 0 ((ensureHealth account).successCount /
            ((ensureHealth account).successCount + (ensureHealth account).failureCount) -
          min ((ensureHealth account).consecutiveFailures * (15 / 100)) (1 / 2))) := rfl

/-- Claim C10: `calculateHealthScore` always lies in `[0, 1]`; it is exactly
`1` when the account has no recorded successes or failures, and otherwise is
the success rate minus the consecutive-failure penalty (capped at `0.5`)
clamped below at `0`; hence `isAccountUsable` holds for a freshly added
account (one with no health record). -/
theorem calculateHealthScore_range (account : QwenAccount)
    (hs : 0 ≤ (ensureHealth account).successCount)
    (hf : 0 ≤ (ensureHealth account).failureCount)
    (hc : 0 ≤ (ensureHealth account).consecutiveFailures) :
    0 ≤ calculateHealthScore account ∧ calculateHealthScore account ≤ 1 ∧
    ((ensureHealth account).successCount + (ensureHealth account).failureCount = 0 →
      calculateHealthScore account = 1) ∧
    ((ensureHealth account).successCount + (ensureHealth account).failureCount ≠ 0 →
      calculateHealthScore account =
        max 0 ((ensureHealth account).successCount /
            ((ensureHealth account).successCount + (ensureHealth account).failureCount) -
          min ((ensureHealth account).consecutiveFailures * (15 / 100)) (1 / 2))) ∧
    (account.health = none → isAccountUsable account) := by
  rw [calculateHealthScore_eq]
  by_cases htot : (ensureHealth account).successCount + (ensureHealth account).failureCount = 0
  · rw [if_pos htot]
    refine ⟨by norm_num, by norm_num, fun _ => rfl, fun hne => absurd htot hne, fun hx => ?_⟩
    unfold isAccountUsable
    rw [calculateHealthScore_eq, if_pos htot]
    norm_num
  · have htotpos : 0 < (ensureHealth account).successCount + (ensureHealth account).failureCount :=
      lt_of_le_of_ne (add_nonneg hs hf) (Ne.symm htot)
    have hpen : 0 ≤ min ((ensureHealth account).consecutiveFailures * (15 / 100)) ((1 : ℚ) / 2) := by
      apply le_min
      · positivity
      · norm_num
    have hrate : (ensureHealth account).successCount /
        ((ensureHealth account).successCount + (ensureHealth account).failureCount) ≤ 1 := by
      rw [div_le_one htotpos]
      linarith
    rw [if_neg htot]
    refine ⟨le_max_left 0 _, ?_, fun h0 => absurd h0 htot, fun _ => rfl, fun hx => ?_⟩
    · apply max_le
      · norm_num
      · linarith
    · exfalso
      apply htot
      unfold ensureHealth at htot ⊢
      rw [hx]
      norm_num

/-- Claim C10 witness: a freshly added account evaluates as usable with
health score `1`. -/
theorem calculateHealthScore_range_witness :
    isAccountUsable { refreshToken := "r1", addedAt := 0, lastUsed := 0 } :=
  (calculateHealthScore_range { refreshToken := "r1", addedAt := 0, lastUsed := 0 }
    (by norm_num [ensureHealth]) (by norm_num [ensureHealth])
    (by norm_num [ensureHealth])).2.2.2.2 rfl

/-- Claim C6: if the last record event at time `T` set the score to `S`,
then `getScore` evaluated `h` hours later with no intervening events returns
`min(maxScore, S + floor(h * recoveryRatePerHour))`; for an index with no
recorded state, `getScore` returns the configured initial score regardless
of elapsed time. -/
theorem getScore_recovery (t : HealthScoreTracker) (i : Nat) (S T ls cf h : ℚ)
    (hst : t.scores i = some { score := S, lastUpdated := T, lastSuccess := ls,
                               consecutiveFailures := cf }) :
    t.getScore (T + h * (1000 * 60 * 60)) i =
      min t.config.maxScore (S + ((⌊h * t.config.recoveryRatePerHour⌋ : ℤ) : ℚ)) ∧
    ∀ (t2 : HealthScoreTracker) (i2 : Nat) (now : ℚ), t2.scores i2 = none →
      t2.getScore now i2 = t2.config.initial := by
  constructor
  · unfold HealthScoreTracker.getScore
    rw [hst]
    have harg : (T + h * (1000 * 60 * 60) - T) / (1000 * 60 * 60) = h := by
      field_simp
    simp only [harg]
  · intro t2 i2 now hnone
    unfold HealthScoreTracker.getScore
    rw [hnone]

/-- Claim C6 witness: a tracker holding score 60 recorded at time 0 under the
default configuration reads back `min(100, 60 + floor(3 * 2)) = 66` three
hours later. -/
theorem getScore_recovery_witness :
    HealthScoreTracker.getScore
        { scores := fun j => if j = 0 then
            some { score := 60, lastUpdated := 0, lastSuccess := 0, consecutiveFailures := 0 }
          else none,
          config := DEFAULT_HEALTH_SCORE_CONFIG }
        (0 + 3 * (1000 * 60 * 60)) 0 =
      min DEFAULT_HEALTH_SCORE_CONFIG.maxScore
        (60 + ((⌊(3 : ℚ) * DEFAULT_HEALTH_SCORE_CONFIG.recoveryRatePerHour⌋ : ℤ) : ℚ)) :=
  (getScore_recovery
    { scores := fun j => if j = 0 then
        some { score := 60, lastUpdated := 0, lastSuccess := 0, consecutiveFailures := 0 }
      else none,
      config := DEFAULT_HEALTH_SCORE_CONFIG }
    0 60 0 0 0 3 rfl).1

/-- Balance after a successful `consume` read back at the same instant. -/
theorem getTokens_after_consume (t : TokenBucketTracker) (now : ℚ) (i : Nat) (cost : ℚ)
    (h : ¬ t.getTokens now i < cost) :
    (t.consume now i cost).2.getTokens now i =
      min t.config.maxTokens (t.getTokens now i - cost) := by
  unfold TokenBucketTracker.consume
  rw [if_neg h]
  show TokenBucketTracker.getTokens _ now i = _
  unfold TokenBucketTracker.getTokens
  simp [sub_self]

/-- The config is unchanged by `consume`. -/
theorem consume_config (t : TokenBucketTracker) (now : ℚ) (i : Nat) (cost : ℚ) :
    (t.consume now i cost).2.config = t.config := by
  unfold TokenBucketTracker.consume
  dsimp only
  split
  · rfl
  · rfl

/-- Draining lemma: `k` single-cost consumes at time 0 on a default-config
tracker with balance at least `k` (and at most 50) leave balance
`initial - k`. -/
theorem consumeN_drain (k : Nat) :
    ∀ t : TokenBucketTracker, t.config = DEFAULT_TOKEN_BUCKET_CONFIG →
      t.getTokens 0 0 ≤ 50 → (k : ℚ) ≤ t.getTokens 0 0 →
      (consumeN t 0 0 k).getTokens 0 0 = t.getTokens 0 0 - k ∧
      (consumeN t 0 0 k).config = DEFAULT_TOKEN_BUCKET_CONFIG ∧
      (consumeN t 0 0 k).getTokens 0 0 ≤ 50 := by
  induction k with
  | zero => intro t hcfg hub hlb; exact ⟨by simp [consumeN], hcfg, hub⟩
  | succ k ih =>
      intro t hcfg hub hlb
      have hone : (1 : ℚ) ≤ t.getTokens 0 0 := by
        have hcast : ((k : ℚ) + 1) ≤ t.getTokens 0 0 := by push_cast at hlb ⊢; linarith
        have hk0 : (0 : ℚ) ≤ (k : ℚ) := by positivity
        linarith
      have hnlt : ¬ t.getTokens 0 0 < 1 := not_lt.2 hone
      have hstep : (t.consume 0 0 1).2.getTokens 0 0 = t.getTokens 0 0 - 1 := by
        rw [getTokens_after_consume t 0 0 1 hnlt, hcfg]
        apply min_eq_right
        show t.getTokens 0 0 - 1 ≤ (50 : ℚ)
        linarith
      have hcfg2 : (t.consume 0 0 1).2.config = DEFAULT_TOKEN_BUCKET_CONFIG := by
        rw [consume_config]; exact hcfg
      have hrec := ih (t.consume 0 0 1).2 hcfg2 (by rw [hstep]; linarith)
        (by rw [hstep]; push_cast at hlb ⊢; linarith)
      refine ⟨?_, hrec.2.1, hrec.2.2⟩
      show (consumeN (t.consume 0 0 1).2 0 0 k).getTokens 0 0 = t.getTokens 0 0 - (k + 1 : Nat)
      rw [hrec.1, hstep]
      push_cast
      ring

/-- Claim C8: `consume` returns true and deducts exactly `cost` when the
regenerated balance is at least `cost`, and otherwise returns false leaving
the bucket state unchanged; after consuming `maxTokens` single-cost tokens
with no elapsed time on a default tracker, a further `consume` returns false
and leaves balance and state unchanged. -/
theorem consume_spec (t : TokenBucketTracker) (now : ℚ) (i : Nat) (cost : ℚ) :
    (cost ≤ t.getTokens now i →
      (t.consume now i cost).1 = true ∧
      (t.consume now i cost).2.buckets i =
        some { tokens := t.getTokens now i - cost, lastUpdated := now } ∧
      ∀ j, j ≠ i → (t.consume now i cost).2.buckets j = t.buckets j) ∧
    (t.getTokens now i < cost → t.consume now i cost = (false, t)) ∧
    ((consumeN (TokenBucketTracker.mk0 DEFAULT_TOKEN_BUCKET_CONFIG) 0 0 50).consume 0 0 1).1
        = false ∧
    ((consumeN (TokenBucketTracker.mk0 DEFAULT_TOKEN_BUCKET_CONFIG) 0 0 50).consume 0 0 1).2
        = consumeN (TokenBucketTracker.mk0 DEFAULT_TOKEN_BUCKET_CONFIG) 0 0 50 ∧
    (consumeN (TokenBucketTracker.mk0 DEFAULT_TOKEN_BUCKET_CONFIG) 0 0 50).getTokens 0 0 = 0 := by
  have hinit : (TokenBucketTracker.mk0 DEFAULT_TOKEN_BUCKET_CONFIG).getTokens 0 0 = 50 := by
    norm_num [TokenBucketTracker.getTokens, TokenBucketTracker.mk0, DEFAULT_TOKEN_BUCKET_CONFIG]
  have hdrain := consumeN_drain 50 (TokenBucketTracker.mk0 DEFAULT_TOKEN_BUCKET_CONFIG)
    rfl (by rw [hinit]) (by rw [hinit]; norm_num)
  have hzero : (consumeN (TokenBucketTracker.mk0 DEFAULT_TOKEN_BUCKET_CONFIG) 0 0 50).getTokens
      0 0 = 0 := by
    rw [hdrain.1, hinit]
    norm_num
  have hlt1 : (consumeN (TokenBucketTracker.mk0 DEFAULT_TOKEN_BUCKET_CONFIG) 0 0 50).getTokens
      0 0 < 1 := by rw [hzero]; norm_num
  have hfail : (consumeN (TokenBucketTracker.mk0 DEFAULT_TOKEN_BUCKET_CONFIG) 0 0 50).consume
      0 0 1 = (false, consumeN (TokenBucketTracker.mk0 DEFAULT_TOKEN_BUCKET_CONFIG) 0 0 50) := by
    unfold TokenBucketTracker.consume
    rw [if_pos hlt1]
  refine ⟨?_, ?_, by rw [hfail], by rw [hfail], hzero⟩
  · intro hle
    have hnlt : ¬ t.getTokens now i < cost := not_lt.2 hle
    unfold TokenBucketTracker.consume
    rw [if_neg hnlt]
    exact ⟨rfl, by simp, fun j hj => by simp [hj]⟩
  · intro hlt
    unfold TokenBucketTracker.consume
    rw [if_pos hlt]

/-- Claim C8 witness: on a fresh default tracker a single-cost consume
succeeds. -/
theorem consume_spec_witness :
    ((TokenBucketTracker.mk0 DEFAULT_TOKEN_BUCKET_CONFIG).consume 0 0 1).1 = true :=
  ((consume_spec (TokenBucketTracker.mk0 DEFAULT_TOKEN_BUCKET_CONFIG) 0 0 1).1
    (by norm_num [TokenBucketTracker.getTokens, TokenBucketTracker.mk0,
      DEFAULT_TOKEN_BUCKET_CONFIG])).1

/-- Claim C1 counterexample: for a 429 response carrying `retry-after-ms:
1000` and no error-code header (reason UNKNOWN, tiered default 60000 ms at
attempt 0), the dispatch loop uses 1000 ms, not the maximum of the header
value and the tiered default. -/
theorem retryBackoffMs_ne_max :
    retryBackoffMs { status := 429, retryAfterMsHeader := some 1000 } 0 = 1000 ∧
    getBackoffMs
        (parseRateLimitReason { status := 429, retryAfterMsHeader := some 1000 }) 0 = 60000 ∧
    retryBackoffMs { status := 429, retryAfterMsHeader := some 1000 } 0 ≠
      max 1000
        (getBackoffMs
          (parseRateLimitReason { status := 429, retryAfterMsHeader := some 1000 }) 0) := by
  refine ⟨rfl, rfl, ?_⟩
  intro h
  have h2 : getBackoffMs
      (parseRateLimitReason { status := 429, retryAfterMsHeader := some 1000 }) 0 = 60000 := rfl
  have h1 : retryBackoffMs { status := 429, retryAfterMsHeader := some 1000 } 0 = 1000 := rfl
  rw [h1, h2, max_eq_right (by norm_num : (1000 : ℚ) ≤ 60000)] at h
  norm_num at h

/-- Claim C1 (amended): the backoff duration used to mark the selected
account rate-limited equals the server-supplied Retry-After value when one
is present, and otherwise the tiered default for the classified reason
indexed by `min(attempts, tier length - 1)`; the maximum of the two is not
taken. -/
theorem retryBackoffMs_header_priority (response : ResponseMeta) (attempts : Nat) :
    (∀ v, extractRetryAfterMs response = some v → retryBackoffMs response attempts = v) ∧
    (extractRetryAfterMs response = none →
      retryBackoffMs response attempts =
        (BACKOFF_TIERS (parseRateLimitReason response)).getD
          (min attempts ((BACKOFF_TIERS (parseRateLimitReason response)).length - 1)) 0) := by
  constructor
  · intro v hv
    unfold retryBackoffMs
    rw [hv]
    rfl
  · intro hnone
    unfold retryBackoffMs
    rw [hnone]
    rfl

/-- Claim C1 amended witness: with the header present the header value is
used; with no header the tiered default is used. -/
theorem retryBackoffMs_header_priority_witness :
    retryBackoffMs { status := 429, retryAfterMsHeader := some 1000 } 0 = 1000 ∧
    retryBackoffMs { status := 503 } 1 =
      (BACKOFF_TIERS (parseRateLimitReason { status := 503 })).getD
        (min 1 ((BACKOFF_TIERS (parseRateLimitReason { status := 503 })).length - 1)) 0 :=
  ⟨(retryBackoffMs_header_priority { status := 429, retryAfterMsHeader := some 1000 } 0).1
      1000 rfl,
    (retryBackoffMs_header_priority { status := 503 } 1).2 rfl⟩

/-- `normalizeStorage` establishes the `activeIndex` invariant
unconditionally. -/
theorem normalizeStorage_inv (s : AccountStorage) : ActiveIndexInv (normalizeStorage s) := by
  unfold normalizeStorage ActiveIndexInv
  dsimp only
  by_cases hlen : 0 < (s.accounts.filter (fun account => account.refreshToken ≠ "")).length
  · rw [if_pos hlen]
    constructor
    · intro h0
      omega
    · intro _
      constructor
      · apply le_min
        · exact le_max_right _ 0
        · omega
      · exact min_le_right _ _
  · rw [if_neg hlen]
    exact ⟨fun _ => rfl, fun hne => absurd (by omega) hne⟩

/-- Claim C5: every storage returned by `upsertAccount`, `updateAccount`,
`markRateLimited`, `recordSuccess`, `recordFailure`, `mergeAccounts`, or by
the storage field of a successful `selectAccount`, satisfies
`activeIndex ∈ [0, len-1]` for non-empty accounts and `activeIndex = 0` for
empty accounts, given an input storage satisfying the same invariant. -/
theorem storage_ops_preserve_inv (s : AccountStorage) (hInv : ActiveIndexInv s) :
    (∀ a, ActiveIndexInv (upsertAccount s a)) ∧
    (∀ i u, ActiveIndexInv (updateAccount s i u)) ∧
    (∀ i retryAfterMs now, ActiveIndexInv (markRateLimited s i retryAfterMs now)) ∧
    (∀ i now, ActiveIndexInv (recordSuccess s i now)) ∧
    (∀ i now, ActiveIndexInv (recordFailure s i now)) ∧
    (∀ s2, ActiveIndexInv (mergeAccounts s s2)) ∧
    (∀ s2, ActiveIndexInv (mergeAccounts s2 s)) ∧
    (∀ strategy now r, selectAccount s strategy now = some r → ActiveIndexInv r.storage) := by
  have hupd : ∀ i u, ActiveIndexInv (updateAccount s i u) := by
    intro i u
    unfold updateAccount
    split
    · exact hInv
    · exact normalizeStorage_inv _
  refine ⟨?_, hupd, ?_, ?_, ?_, ?_, ?_, ?_⟩
  · intro a
    unfold upsertAccount
    split
    · exact normalizeStorage_inv _
    · exact normalizeStorage_inv _
  · intro i retryAfterMs now
    unfold markRateLimited
    exact hupd i _
  · intro i now
    unfold recordSuccess
    split
    · exact hInv
    · exact hupd i _
  · intro i now
    unfold recordFailure
    split
    · exact hInv
    · exact hupd i _
  · intro s2
    unfold mergeAccounts
    exact normalizeStorage_inv _
  · intro s2
    unfold mergeAccounts
    exact normalizeStorage_inv _
  · intro strategy now r hsel
    unfold selectAccount at hsel
    dsimp only at hsel
    split at hsel
    · exact absurd hsel (by simp)
    · split at hsel
      · split at hsel
        · rw [Option.some_inj] at hsel
          rw [← hsel]
          exact normalizeStorage_inv _
        · exact absurd hsel (by simp)
      · exact absurd hsel (by simp)

/-- Claim C5 witness: the invariant is preserved by an upsert into a
one-account storage. -/
theorem storage_ops_preserve_inv_witness :
    ActiveIndexInv
      (upsertAccount
        { version := 1, accounts := [{ refreshToken := "r1", addedAt := 0, lastUsed := 0 }],
          activeIndex := 0 }
        { refreshToken := "r2", addedAt := 1, lastUsed := 1 }) :=
  (storage_ops_preserve_inv
    { version := 1, accounts := [{ refreshToken := "r1", addedAt := 0, lastUsed := 0 }],
      activeIndex := 0 }
    ⟨fun h => by simp at h, fun _ => by norm_num⟩).1
    { refreshToken := "r2", addedAt := 1, lastUsed := 1 }

/-- `find?` returns the first element satisfying the predicate: every
earlier element fails it. -/
theorem find?_first_position {α : Type} (p : α → Bool) :
    ∀ (l : List α) (x : α), l.find? p = some x →
      ∃ k, l.get? k = some x ∧ p x = true ∧
        ∀ j, j < k → ∀ y, l.get? j = some y → p y = false := by
  intro l
  induction l with
  | nil => intro x h; simp [List.find?] at h
  | cons a as ih =>
      intro x h
      by_cases hpa : p a
      · rw [List.find?_cons_of_pos _ hpa, Option.some_inj] at h
        exact ⟨0, by simp [← h], h ▸ hpa, fun j hj => absurd hj (Nat.not_lt_zero j)⟩
      · rw [List.find?_cons_of_neg _ hpa] at h
        obtain ⟨k, hget, hpx, hearlier⟩ := ih x h
        refine ⟨k + 1, by simpa using hget, hpx, ?_⟩
        intro j hj y hy
        match j with
        | 0 =>
            simp only [List.get?] at hy
            rw [Option.some_inj] at hy
            rw [← hy]
            exact Bool.of_not_eq_true hpa
        | Nat.succ j2 =>
            exact hearlier j2 (by omega) y (by simpa using hy)

/-- Unfolding equation for `selectAccount`. -/
theorem selectAccount_eq (storage : AccountStorage) (strategy : RotationStrategy) (now : ℚ) :
    selectAccount storage strategy now =
      (if storage.accounts.length = 0 then none
       else
        let startIndex : Nat :=
          match strategy with
          | RotationStrategy.roundRobin =>
              ((storage.activeIndex + 1) % (storage.accounts.length : ℤ)).toNat
          | RotationStrategy.sequential =>
              (min storage.activeIndex ((storage.accounts.length : ℤ) - 1)).toNat
        match ((List.range storage.accounts.length).map
            (fun offset => (startIndex + offset) % storage.accounts.length)).find?
            (selectPred storage.accounts now) with
        | some index =>
            match storage.accounts.get? index with
            | some account =>
                some { account := account, index := index,
                       storage := normalizeStorage
                         { version := 1, accounts := storage.accounts,
                           activeIndex := (index : ℤ) } }
            | none => none
        | none => none) := rfl

/-- Claim C9: under round-robin, `selectAccount` starts at
`(activeIndex + 1) mod N`, skips accounts whose reset time exceeds `now`,
returns the first non-skipped account, and records the chosen index as the
new `activeIndex`; for two fresh accounts `[A, B]` with `activeIndex = 0`
it returns index 1 and then, from the returned storage, index 0. -/
theorem selectAccount_roundRobin_spec :
    (∀ (storage : AccountStorage) (now : ℚ) (r : SelectResult),
      (∀ a ∈ storage.accounts, a.refreshToken ≠ "") →
      0 ≤ storage.activeIndex →
      selectAccount storage RotationStrategy.roundRobin now = some r →
      ∃ o, o < storage.accounts.length ∧
        r.index = (((storage.activeIndex + 1) % (storage.accounts.length : ℤ)).toNat + o) %
          storage.accounts.length ∧
        storage.accounts.get? r.index = some r.account ∧
        rateLimitSkip r.account now = false ∧
        (∀ o2, o2 < o → ∀ a,
          storage.accounts.get?
              ((((storage.activeIndex + 1) % (storage.accounts.length : ℤ)).toNat + o2) %
                storage.accounts.length) = some a →
          rateLimitSkip a now = true) ∧
        r.storage.accounts = storage.accounts ∧
        r.storage.activeIndex = (r.index : ℤ)) ∧
    (∀ (A B : QwenAccount) (now : ℚ),
      A.refreshToken ≠ "" → B.refreshToken ≠ "" →
      rateLimitSkip A now = false → rateLimitSkip B now = false →
      selectAccount { version := 1, accounts := [A, B], activeIndex := 0 }
          RotationStrategy.roundRobin now =
        some { account := B, index := 1,
               storage := { version := 1, accounts := [A, B], activeIndex := 1 } } ∧
      selectAccount { version := 1, accounts := [A, B], activeIndex := 1 }
          RotationStrategy.roundRobin now =
        some { account := A, index := 0,
               storage := { version := 1, accounts := [A, B], activeIndex := 0 } }) := by
  constructor
  · intro storage now r hall hge hsel
    rw [selectAccount_eq] at hsel
    dsimp only at hsel
    split at hsel
    · exact absurd hsel (by simp)
    · rename_i hlen
      split at hsel
      · rename_i index hfind
        split at hsel
        · rename_i account hget
          rw [Option.some_inj] at hsel
          obtain ⟨k, hk, hpx, hearlier⟩ := find?_first_position _ _ _ hfind
          have hklen : k < storage.accounts.length := by
            by_contra hge2
            rw [List.get?_eq_none.mpr (by simpa using hge2)] at hk
            exact absurd hk (by simp)
          have hkval : index =
              (((storage.activeIndex + 1) % (storage.accounts.length : ℤ)).toNat + k) %
                storage.accounts.length := by
            rw [List.get?_map, List.get?_range hklen] at hk
            simpa using hk.symm
          refine ⟨k, hklen, ?_, ?_, ?_, ?_, ?_, ?_⟩
          · rw [← hsel]
            exact hkval
          · rw [← hsel]
            exact hget
          · rw [← hsel]
            unfold selectPred at hpx
            rw [hget] at hpx
            simpa using hpx
          · intro o2 ho2 a hgeta
            have ho2len : o2 < storage.accounts.length := lt_trans ho2 hklen
            have := hearlier o2 ho2
              ((((storage.activeIndex + 1) % (storage.accounts.length : ℤ)).toNat + o2) %
                storage.accounts.length)
              (by rw [List.get?_map, List.get?_range ho2len]; rfl)
            unfold selectPred at this
            rw [hgeta] at this
            simpa using this
          · rw [← hsel]
            show (normalizeStorage _).accounts = storage.accounts
            unfold normalizeStorage
            dsimp only
            exact List.filter_eq_self.mpr (fun a ha => by simpa using hall a ha)
          · rw [← hsel]
            show (normalizeStorage _).activeIndex = (index : ℤ)
            unfold normalizeStorage
            dsimp only
            have hfilter : storage.accounts.filter
                (fun account => account.refreshToken ≠ "") = storage.accounts :=
              List.filter_eq_self.mpr (fun a ha => by simpa using hall a ha)
            rw [hfilter]
            have hidxlen : index < storage.accounts.length := by
              rw [hkval]
              exact Nat.mod_lt _ (Nat.pos_of_ne_zero hlen)
            rw [if_pos (Nat.pos_of_ne_zero hlen)]
            rw [max_eq_left (by positivity)]
            apply min_eq_left
            omega
        · exact absurd hsel (by simp)
      · exact absurd hsel (by simp)
  · intro A B now hA hB hsA hsB
    constructor
    · rw [selectAccount_eq]
      norm_num [selectPred, hsB, List.range_succ, normalizeStorage, List.filter, hA, hB]
    · rw [selectAccount_eq]
      norm_num [selectPred, hsA, List.range_succ, normalizeStorage, List.filter, hA, hB]

/-- Claim C9 witness: concrete two-account rotation returns index 1 then
index 0. -/
theorem selectAccount_roundRobin_spec_witness :
    selectAccount
        { version := 1,
          accounts := [{ refreshToken := "a", addedAt := 0, lastUsed := 0 },
                       { refreshToken := "b", addedAt := 0, lastUsed := 0 }],
          activeIndex := 0 }
        RotationStrategy.roundRobin 0 =
      some { account := { refreshToken := "b", addedAt := 0, lastUsed := 0 }, index := 1,
             storage := { version := 1,
                          accounts := [{ refreshToken := "a", addedAt := 0, lastUsed := 0 },
                                       { refreshToken := "b", addedAt := 0, lastUsed := 0 }],
                          activeIndex := 1 } } :=
  (selectAccount_roundRobin_spec.2
    { refreshToken := "a", addedAt := 0, lastUsed := 0 }
    { refreshToken := "b", addedAt := 0, lastUsed := 0 }
    0 (by decide) (by decide) rfl rfl).1

/-- Membership through `insertByScoreDesc`. -/
theorem mem_insertByScoreDesc (l : List HybridSelectionResult) (x z : HybridSelectionResult) :
    z ∈ insertByScoreDesc l x ↔ z = x ∨ z ∈ l := by
  induction l with
  | nil => simp [insertByScoreDesc]
  | cons y ys ih =>
      unfold insertByScoreDesc
      split
      · simp only [List.mem_cons, ih]
        tauto
      · simp only [List.mem_cons]

/-- `insertByScoreDesc` preserves the head-is-maximum property. -/
theorem headMax_insertByScoreDesc (l : List HybridSelectionResult) (x : HybridSelectionResult)
    (hl : HeadMax l) : HeadMax (insertByScoreDesc l x) := by
  cases l with
  | nil =>
      intro hd hhd y hy
      simp only [insertByScoreDesc, List.head?] at hhd
      rw [Option.some_inj] at hhd
      simp only [insertByScoreDesc, List.mem_singleton] at hy
      rw [hy, hhd]
  | cons a as =>
      unfold insertByScoreDesc
      split
      · rename_i hle
        intro hd hhd y hy
        simp only [List.head?] at hhd
        rw [Option.some_inj] at hhd
        rw [List.mem_cons] at hy
        rcases hy with hy | hy
        · rw [hy, hhd]
        · rw [mem_insertByScoreDesc] at hy
          rw [← hhd]
          rcases hy with hy | hy
          · rw [hy]; exact hle
          · exact hl a rfl y (List.mem_cons_of_mem a hy)
      · rename_i hgt
        intro hd hhd y hy
        simp only [List.head?] at hhd
        rw [Option.some_inj] at hhd
        rw [← hhd]
        rw [List.mem_cons] at hy
        rcases hy with hy | hy
        · rw [hy]
        · have : y.score ≤ a.score := by
            rcases (List.mem_cons.mp hy) with h | h
            · rw [h]
            · exact hl a rfl y (List.mem_cons_of_mem a h)
          have hax : a.score ≤ x.score := le_of_not_le hgt
          linarith

/-- Membership through the sorting fold. -/
theorem mem_sortFold (ls : List HybridSelectionResult) :
    ∀ acc z, (z ∈ ls.foldl insertByScoreDesc acc ↔ z ∈ acc ∨ z ∈ ls) := by
  induction ls with
  | nil => simp
  | cons a as ih =>
      intro acc z
      simp only [List.foldl_cons, ih, mem_insertByScoreDesc, List.mem_cons]
      tauto

/-- The sorting fold preserves the head-is-maximum property. -/
theorem headMax_sortFold (ls : List HybridSelectionResult) :
    ∀ acc, HeadMax acc → HeadMax (ls.foldl insertByScoreDesc acc) := by
  induction ls with
  | nil => intro acc h; exact h
  | cons a as ih =>
      intro acc h
      exact ih _ (headMax_insertByScoreDesc acc a h)

/-- `sortByScoreDesc` preserves membership. -/
theorem mem_sortByScoreDesc (ls : List HybridSelectionResult) (z : HybridSelectionResult) :
    z ∈ sortByScoreDesc ls ↔ z ∈ ls := by
  unfold sortByScoreDesc
  rw [mem_sortFold]
  simp

/-- The head of `sortByScoreDesc` dominates every element's score. -/
theorem head_sortByScoreDesc_max (ls : List HybridSelectionResult) :
    HeadMax (sortByScoreDesc ls) :=
  headMax_sortFold ls [] (fun hd hhd => by simp at hhd)

/-- A nonempty list sorts to a nonempty list. -/
theorem sortByScoreDesc_ne_nil (ls : List HybridSelectionResult) (h : ls ≠ []) :
    sortByScoreDesc ls ≠ [] := by
  obtain ⟨a, ha⟩ := List.exists_mem_of_ne_nil ls h
  intro hcontra
  have : a ∈ sortByScoreDesc ls := (mem_sortByScoreDesc ls a).mpr ha
  rw [hcontra] at this
  simp at this

/-- Unfolding equation for `selectHybridAccount`. -/
theorem selectHybridAccount_eq (accounts : List AccountWithMetrics) (minH maxT now : ℚ) :
    selectHybridAccount accounts minH maxT now =
      (if (accounts.filter (fun acc => ! acc.isRateLimited)).length = 0 then none
       else
        (sortByScoreDesc
          (((if 0 < ((accounts.filter (fun acc => ! acc.isRateLimited)).filter
                (fun acc => minH ≤ acc.healthScore ∧ 1 ≤ acc.tokens)).length then
              (accounts.filter (fun acc => ! acc.isRateLimited)).filter
                (fun acc => minH ≤ acc.healthScore ∧ 1 ≤ acc.tokens)
            else accounts.filter (fun acc => ! acc.isRateLimited))).map
            (fun acc =>
              let r := calculateHybridScore acc maxT now
              { index := acc.index, score := r.1, breakdown := r.2 }))).head?) := rfl

/-- Claim C3: `selectHybridAccount` returns null exactly when every account
is rate-limited (or the list is empty); when some account is not
rate-limited but every non-rate-limited account is below `minHealthScore`
or has fewer than 1 token, it still returns a non-rate-limited account
whose hybrid score dominates all non-rate-limited accounts (soft
fallback). -/
theorem selectHybridAccount_null_iff_and_fallback (accounts : List AccountWithMetrics)
    (minH maxT now : ℚ) :
    (selectHybridAccount accounts minH maxT now = none ↔
      ∀ a ∈ accounts, a.isRateLimited = true) ∧
    ((∃ a ∈ accounts, a.isRateLimited = false) →
      (∀ a ∈ accounts, a.isRateLimited = false → a.healthScore < minH ∨ a.tokens < 1) →
      ∃ r, selectHybridAccount accounts minH maxT now = some r ∧
        (∃ a ∈ accounts, a.isRateLimited = false ∧ a.index = r.index ∧
          r.score = (calculateHybridScore a maxT now).1) ∧
        ∀ b ∈ accounts, b.isRateLimited = false →
          (calculateHybridScore b maxT now).1 ≤ r.score) := by
  have hmemnrl : ∀ a, a ∈ accounts.filter (fun acc => ! acc.isRateLimited) ↔
      a ∈ accounts ∧ a.isRateLimited = false := by
    intro a
    rw [List.mem_filter]
    simp
  constructor
  · constructor
    · intro hnone
      rw [selectHybridAccount_eq] at hnone
      by_cases hlen : (accounts.filter (fun acc => ! acc.isRateLimited)).length = 0
      · intro a ha
        have hempty : accounts.filter (fun acc => ! acc.isRateLimited) = [] :=
          List.length_eq_zero.mp hlen
        by_contra hrl
        have haf : a ∈ accounts.filter (fun acc => ! acc.isRateLimited) :=
          (hmemnrl a).mpr ⟨ha, Bool.not_eq_true _ ▸ Bool.of_not_eq_true hrl⟩
        rw [hempty] at haf
        simp at haf
      · exfalso
        rw [if_neg hlen] at hnone
        have hnrlne : accounts.filter (fun acc => ! acc.isRateLimited) ≠ [] := by
          intro hcontra
          exact hlen (by rw [hcontra]; rfl)
        have hcandne : (if 0 < ((accounts.filter (fun acc => ! acc.isRateLimited)).filter
              (fun acc => minH ≤ acc.healthScore ∧ 1 ≤ acc.tokens)).length then
            (accounts.filter (fun acc => ! acc.isRateLimited)).filter
              (fun acc => minH ≤ acc.healthScore ∧ 1 ≤ acc.tokens)
          else accounts.filter (fun acc => ! acc.isRateLimited)) ≠ [] := by
          split
          · rename_i hpos
            intro hcontra
            rw [hcontra] at hpos
            simp at hpos
          · exact hnrlne
        have hmapne : ((if 0 < ((accounts.filter (fun acc => ! acc.isRateLimited)).filter
              (fun acc => minH ≤ acc.healthScore ∧ 1 ≤ acc.tokens)).length then
            (accounts.filter (fun acc => ! acc.isRateLimited)).filter
              (fun acc => minH ≤ acc.healthScore ∧ 1 ≤ acc.tokens)
          else accounts.filter (fun acc => ! acc.isRateLimited))).map
            (fun acc =>
              let r := calculateHybridScore acc maxT now
              { index := acc.index, score := r.1,
                breakdown := r.2 : HybridSelectionResult }) ≠ [] := by
          intro hcontra
          exact hcandne (List.map_eq_nil.mp hcontra)
        have hsortne := sortByScoreDesc_ne_nil _ hmapne
        cases hsort : sortByScoreDesc (((if 0 < ((accounts.filter
              (fun acc => ! acc.isRateLimited)).filter
              (fun acc => minH ≤ acc.healthScore ∧ 1 ≤ acc.tokens)).length then
            (accounts.filter (fun acc => ! acc.isRateLimited)).filter
              (fun acc => minH ≤ acc.healthScore ∧ 1 ≤ acc.tokens)
          else accounts.filter (fun acc => ! acc.isRateLimited))).map
            (fun acc =>
              let r := calculateHybridScore acc maxT now
              { index := acc.index, score := r.1, breakdown := r.2 })) with
        | nil => exact hsortne hsort
        | cons hd tl =>
            rw [hsort] at hnone
            simp at hnone
    · intro hall
      rw [selectHybridAccount_eq]
      have hempty : accounts.filter (fun acc => ! acc.isRateLimited) = [] := by
        rw [List.filter_eq_nil]
        intro a ha
        simp [hall a ha]
      rw [if_pos (by rw [hempty]; rfl)]
  · intro hex hfall
    have hnrlne : accounts.filter (fun acc => ! acc.isRateLimited) ≠ [] := by
      obtain ⟨a, ha, hrl⟩ := hex
      intro hcontra
      have : a ∈ accounts.filter (fun acc => ! acc.isRateLimited) :=
        (hmemnrl a).mpr ⟨ha, hrl⟩
      rw [hcontra] at this
      simp at this
    have hideal : ((accounts.filter (fun acc => ! acc.isRateLimited)).filter
        (fun acc => minH ≤ acc.healthScore ∧ 1 ≤ acc.tokens)) = [] := by
      rw [List.filter_eq_nil]
      intro a ha
      obtain ⟨hin, hrl⟩ := (hmemnrl a).mp ha
      rcases hfall a hin hrl with hlow | hlow
      · simp only [decide_eq_true_eq, not_and]
        intro hcontra
        exact absurd hcontra (not_le.mpr hlow)
      · simp only [decide_eq_true_eq, not_and]
        intro _
        exact not_le.mpr hlow
    have hcand : (if 0 < ((accounts.filter (fun acc => ! acc.isRateLimited)).filter
          (fun acc => minH ≤ acc.healthScore ∧ 1 ≤ acc.tokens)).length then
        (accounts.filter (fun acc => ! acc.isRateLimited)).filter
          (fun acc => minH ≤ acc.healthScore ∧ 1 ≤ acc.tokens)
      else accounts.filter (fun acc => ! acc.isRateLimited)) =
        accounts.filter (fun acc => ! acc.isRateLimited) := by
      rw [if_neg]
      rw [hideal]
      simp
    have hlenne : ¬ (accounts.filter (fun acc => ! acc.isRateLimited)).length = 0 := by
      intro hcontra
      exact hnrlne (List.length_eq_zero.mp hcontra)
    have hmapne : ((accounts.filter (fun acc => ! acc.isRateLimited)).map
        (fun acc =>
          let r := calculateHybridScore acc maxT now
          { index := acc.index, score := r.1,
            breakdown := r.2 : HybridSelectionResult })) ≠ [] := by
      intro hcontra
      exact hnrlne (List.map_eq_nil.mp hcontra)
    have hsortne := sortByScoreDesc_ne_nil _ hmapne
    cases hsort : sortByScoreDesc (((accounts.filter (fun acc => ! acc.isRateLimited))).map
        (fun acc =>
          let r := calculateHybridScore acc maxT now
          { index := acc.index, score := r.1, breakdown := r.2 })) with
    | nil => exact absurd hsort hsortne
    | cons hd tl =>
        refine ⟨hd, ?_, ?_, ?_⟩
        · rw [selectHybridAccount_eq, if_neg hlenne, hcand, hsort]
          rfl
        · have hhdmem : hd ∈ sortByScoreDesc
              (((accounts.filter (fun acc => ! acc.isRateLimited))).map
                (fun acc =>
                  let r := calculateHybridScore acc maxT now
                  { index := acc.index, score := r.1, breakdown := r.2 })) := by
            rw [hsort]
            simp
          rw [mem_sortByScoreDesc, List.mem_map] at hhdmem
          obtain ⟨a, haf, hmk⟩ := hhdmem
          obtain ⟨hin, hrl⟩ := (hmemnrl a).mp haf
          refine ⟨a, hin, hrl, ?_, ?_⟩
          · rw [← hmk]
          · rw [← hmk]
        · intro b hb hbrl
          have hbmem : HybridSelectionResult.mk b.index (calculateHybridScore b maxT now).1
              (calculateHybridScore b maxT now).2 ∈
              sortByScoreDesc
                (((accounts.filter (fun acc => ! acc.isRateLimited))).map
                  (fun acc =>
                    let r := calculateHybridScore acc maxT now
                    { index := acc.index, score := r.1, breakdown := r.2 })) := by
            rw [mem_sortByScoreDesc, List.mem_map]
            exact ⟨b, (hmemnrl b).mpr ⟨hb, hbrl⟩, rfl⟩
          have := head_sortByScoreDesc_max
            (((accounts.filter (fun acc => ! acc.isRateLimited))).map
              (fun acc =>
                let r := calculateHybridScore acc maxT now
                { index := acc.index, score := r.1, breakdown := r.2 }))
            hd (by rw [hsort]; rfl) _ hbmem
          simpa using this

/-- Claim C3 witness: with the single account rate-limited the hybrid
selector returns null. -/
theorem selectHybridAccount_null_iff_and_fallback_witness :
    selectHybridAccount
      [{ index := 0, lastUsed := 0, healthScore := 70, tokens := 50, isRateLimited := true }]
      50 50 0 = none :=
  (selectHybridAccount_null_iff_and_fallback
    [{ index := 0, lastUsed := 0, healthScore := 70, tokens := 50, isRateLimited := true }]
    50 50 0).1.mpr (by decide)

/-! ## Event traces over the health score tracker -/

/-- Under the default config, `getScore` of a `ScoresOK` tracker read at or
after the watermark is within `[0, maxScore]`. -/
theorem getScore_bounds_of_ScoresOK (t : HealthScoreTracker) (w now : ℚ) (i : Nat)
    (hok : ScoresOK t w) (hcfg : t.config = DEFAULT_HEALTH_SCORE_CONFIG) (hnow : w ≤ now) :
    0 ≤ t.getScore now i ∧ t.getScore now i ≤ t.config.maxScore := by
  unfold HealthScoreTracker.getScore
  cases hst : t.scores i with
  | none =>
      rw [hcfg]
      norm_num [DEFAULT_HEALTH_SCORE_CONFIG]
  | some st =>
      obtain ⟨h0, hmax, hupd⟩ := hok i st hst
      have hrec : (0 : ℚ) ≤ ((⌊(now - st.lastUpdated) / (1000 * 60 * 60) *
          t.config.recoveryRatePerHour⌋ : ℤ) : ℚ) := by
        have harg : (0 : ℚ) ≤ (now - st.lastUpdated) / (1000 * 60 * 60) *
            t.config.recoveryRatePerHour := by
          apply mul_nonneg
          · apply div_nonneg
            · linarith
            · norm_num
          · rw [hcfg]
            norm_num [DEFAULT_HEALTH_SCORE_CONFIG]
        exact_mod_cast Int.le_floor.mpr (by exact_mod_cast harg)
      constructor
      · apply le_min
        · rw [hcfg]
          norm_num [DEFAULT_HEALTH_SCORE_CONFIG]
        · linarith
      · exact min_le_left _ _

/-- One event preserves `ScoresOK`, bumping the watermark to the event
time; the config is untouched. -/
theorem applyHealthEvent_ScoresOK (t : HealthScoreTracker) (w now : ℚ) (i : Nat)
    (e : HealthEvent) (hok : ScoresOK t w) (hcfg : t.config = DEFAULT_HEALTH_SCORE_CONFIG)
    (hnow : w ≤ now) :
    ScoresOK (applyHealthEvent t now i e) now ∧
    (applyHealthEvent t now i e).config = DEFAULT_HEALTH_SCORE_CONFIG := by
  obtain ⟨hlb, hub⟩ := getScore_bounds_of_ScoresOK t w now i hok hcfg hnow
  have hkeep : ∀ st j, t.scores j = some st →
      0 ≤ st.score ∧ st.score ≤ t.config.maxScore ∧ st.lastUpdated ≤ now := by
    intro st j hj
    obtain ⟨h1, h2, h3⟩ := hok j st hj
    exact ⟨h1, h2, le_trans h3 hnow⟩
  cases e with
  | success =>
      refine ⟨?_, hcfg⟩
      intro j st hj
      unfold applyHealthEvent HealthScoreTracker.recordSuccess at hj
      dsimp only at hj
      by_cases hji : j = i
      · rw [if_pos hji] at hj
        rw [Option.some_inj] at hj
        rw [← hj]
        refine ⟨?_, min_le_left _ _, le_refl now⟩
        apply le_min
        · rw [hcfg]; norm_num [DEFAULT_HEALTH_SCORE_CONFIG]
        · rw [hcfg]
          show (0 : ℚ) ≤ t.getScore now i + DEFAULT_HEALTH_SCORE_CONFIG.successReward
          have : (0 : ℚ) ≤ DEFAULT_HEALTH_SCORE_CONFIG.successReward := by
            norm_num [DEFAULT_HEALTH_SCORE_CONFIG]
          linarith
      · rw [if_neg hji] at hj
        exact hkeep st j hj
  | rateLimit =>
      refine ⟨?_, hcfg⟩
      intro j st hj
      unfold applyHealthEvent HealthScoreTracker.recordRateLimit at hj
      dsimp only at hj
      by_cases hji : j = i
      · rw [if_pos hji] at hj
        rw [Option.some_inj] at hj
        rw [← hj]
        refine ⟨le_max_left 0 _, ?_, le_refl now⟩
        apply max_le
        · show (0 : ℚ) ≤ t.config.maxScore
          rw [hcfg]; norm_num [DEFAULT_HEALTH_SCORE_CONFIG]
        · show t.getScore now i + t.config.rateLimitPenalty ≤ t.config.maxScore
          rw [hcfg]
          rw [hcfg] at hub
          have : DEFAULT_HEALTH_SCORE_CONFIG.rateLimitPenalty ≤ 0 := by
            norm_num [DEFAULT_HEALTH_SCORE_CONFIG]
          linarith
      · rw [if_neg hji] at hj
        exact hkeep st j hj
  | failure =>
      refine ⟨?_, hcfg⟩
      intro j st hj
      unfold applyHealthEvent HealthScoreTracker.recordFailure at hj
      dsimp only at hj
      by_cases hji : j = i
      · rw [if_pos hji] at hj
        rw [Option.some_inj] at hj
        rw [← hj]
        refine ⟨le_max_left 0 _, ?_, le_refl now⟩
        apply max_le
        · show (0 : ℚ) ≤ t.config.maxScore
          rw [hcfg]; norm_num [DEFAULT_HEALTH_SCORE_CONFIG]
        · show t.getScore now i + t.config.failurePenalty ≤ t.config.maxScore
          rw [hcfg]
          rw [hcfg] at hub
          have : DEFAULT_HEALTH_SCORE_CONFIG.failurePenalty ≤ 0 := by
            norm_num [DEFAULT_HEALTH_SCORE_CONFIG]
          linarith
      · rw [if_neg hji] at hj
        exact hkeep st j hj

/-- Running a chronological trace preserves `ScoresOK` up to the final
watermark and never lowers the watermark. -/
theorem runHealthTrace_ScoresOK (trace : List HealthCall) :
    ∀ (t : HealthScoreTracker) (w : ℚ), ScoresOK t w →
      t.config = DEFAULT_HEALTH_SCORE_CONFIG → Chronological w trace →
      ScoresOK (runHealthTrace t trace) (traceEnd w trace) ∧
      (runHealthTrace t trace).config = DEFAULT_HEALTH_SCORE_CONFIG ∧
      w ≤ traceEnd w trace := by
  induction trace with
  | nil => intro t w hok hcfg _; exact ⟨hok, hcfg, le_refl w⟩
  | cons c rest ih =>
      intro t w hok hcfg hchron
      obtain ⟨hwc, hrest⟩ := hchron
      obtain ⟨hok2, hcfg2⟩ := applyHealthEvent_ScoresOK t w c.time c.index c.event hok hcfg hwc
      obtain ⟨hok3, hcfg3, hle3⟩ := ih (applyHealthEvent t c.time c.index c.event) c.time
        hok2 hcfg2 hrest
      exact ⟨hok3, hcfg3, le_trans hwc hle3⟩

/-- Claim C7: for every finite sequence of `recordSuccess` /
`recordRateLimit` / `recordFailure` calls on a default-config tracker, made
at nondecreasing times, `getScore` read at or after the last call (so: at
every point during or after the sequence, for every prefix) lies in
`[0, maxScore]`, for every account index. -/
theorem getScore_bounded_over_traces (trace : List HealthCall) (q : ℚ) (i : Nat)
    (hchron : Chronological 0 trace) (hq : traceEnd 0 trace ≤ q) :
    0 ≤ (runHealthTrace (HealthScoreTracker.mk0 DEFAULT_HEALTH_SCORE_CONFIG) trace).getScore q i ∧
    (runHealthTrace (HealthScoreTracker.mk0 DEFAULT_HEALTH_SCORE_CONFIG) trace).getScore q i ≤
      DEFAULT_HEALTH_SCORE_CONFIG.maxScore := by
  have hok0 : ScoresOK (HealthScoreTracker.mk0 DEFAULT_HEALTH_SCORE_CONFIG) 0 := by
    intro j st hj
    exact absurd hj (by simp [HealthScoreTracker.mk0])
  obtain ⟨hok, hcfg, _⟩ := runHealthTrace_ScoresOK trace
    (HealthScoreTracker.mk0 DEFAULT_HEALTH_SCORE_CONFIG) 0 hok0 rfl hchron
  have := getScore_bounds_of_ScoresOK _ _ q i hok hcfg hq
  rw [hcfg] at this
  exact this

/-- Claim C7 witness: a success at time 0 then a failure at time 5, read at
time 10, stays within `[0, 100]`. -/
theorem getScore_bounded_over_traces_witness :
    0 ≤ (runHealthTrace (HealthScoreTracker.mk0 DEFAULT_HEALTH_SCORE_CONFIG)
        [{ time := 0, index := 0, event := HealthEvent.success },
         { time := 5, index := 0, event := HealthEvent.failure }]).getScore 10 0 ∧
    (runHealthTrace (HealthScoreTracker.mk0 DEFAULT_HEALTH_SCORE_CONFIG)
        [{ time := 0, index := 0, event := HealthEvent.success },
         { time := 5, index := 0, event := HealthEvent.failure }]).getScore 10 0 ≤
      DEFAULT_HEALTH_SCORE_CONFIG.maxScore :=
  getScore_bounded_over_traces
    [{ time := 0, index := 0, event := HealthEvent.success },
     { time := 5, index := 0, event := HealthEvent.failure }]
    10 0 ⟨by norm_num, by norm_num, trivial⟩ (by norm_num [traceEnd])

/-- `mapSet` then `mapGet` at the same key yields the inserted value. -/
theorem mapGet_mapSet_self (m : List (String × QwenAccount)) (k : String) (v : QwenAccount) :
    mapGet (mapSet m k v) k = some v := by
  unfold mapSet mapGet
  split
  · rename_i hany
    induction m with
    | nil => simp at hany
    | cons p ps ih =>
        simp only [List.any_cons, Bool.or_eq_true, decide_eq_true_eq] at hany
        by_cases hpk : p.1 = k
        · simp [List.find?, hpk]
        · simp only [List.map_cons, if_neg hpk]
          rw [List.find?_cons_of_neg _ (by simpa using hpk)]
          apply ih
          rcases hany with h | h
          · exact absurd h hpk
          · simpa using h
  · rename_i hany
    have hnone : (m.map (fun p => (p.1, p.2))).find? (fun p => p.1 = k) = none := by
      rw [List.find?_eq_none]
      intro p hp
      simp only [List.any_eq_true, not_exists, not_and] at hany
      simp only [List.mem_map] at hp
      obtain ⟨q, hq, hqe⟩ := hp
      have := hany q hq
      rw [← hqe]
      simpa using this
    have hnone2 : m.find? (fun p => p.1 = k) = none := by
      rw [List.find?_eq_none]
      intro p hp
      simp only [List.any_eq_true, not_exists, not_and] at hany
      have := hany p hp
      simpa using this
    rw [List.find?_append, hnone2]
    simp [List.find?]

/-- `mapSet` leaves other keys untouched. -/
theorem mapGet_mapSet_other (m : List (String × QwenAccount)) (k k2 : String) (v : QwenAccount)
    (hne : k2 ≠ k) : mapGet (mapSet m k v) k2 = mapGet m k2 := by
  unfold mapSet mapGet
  split
  · rename_i hany
    clear hany
    induction m with
    | nil => simp
    | cons p ps ih =>
        by_cases hpk : p.1 = k
        · simp only [List.map_cons, if_pos hpk]
          rw [List.find?_cons_of_neg _ (by simpa using Ne.symm hne),
            List.find?_cons_of_neg _ (by rw [hpk]; simpa using Ne.symm hne)]
          exact ih
        · simp only [List.map_cons, if_neg hpk]
          by_cases hpk2 : p.1 = k2
          · rw [List.find?_cons_of_pos _ (by simpa using hpk2),
              List.find?_cons_of_pos _ (by simpa using hpk2)]
          · rw [List.find?_cons_of_neg _ (by simpa using hpk2),
              List.find?_cons_of_neg _ (by simpa using hpk2)]
            exact ih
  · rw [List.find?_append]
    have : ([(k, v)].find? (fun p => p.1 = k2)) = none := by
      rw [List.find?_eq_none]
      intro p hp
      simp only [List.mem_singleton] at hp
      rw [hp]
      simpa using Ne.symm hne
    rw [this]
    cases m.find? (fun p => p.1 = k2) <;> simp

/-- Both loop steps insert only at the processed account's own key. -/
theorem insStep_other (m : List (String × QwenAccount)) (a : QwenAccount) (k : String)
    (h : a.refreshToken ≠ k) : mapGet (insStep m a) k = mapGet m k :=
  mapGet_mapSet_other m a.refreshToken k a (Ne.symm h)

/-- `mergeStep` leaves other keys untouched. -/
theorem mergeStep_other (m : List (String × QwenAccount)) (a : QwenAccount) (k : String)
    (h : a.refreshToken ≠ k) : mapGet (mergeStep m a) k = mapGet m k := by
  unfold mergeStep
  split
  · exact mapGet_mapSet_other m a.refreshToken k _ (Ne.symm h)
  · exact mapGet_mapSet_other m a.refreshToken k a (Ne.symm h)

/-- Folding either step over accounts whose keys avoid `k` preserves the
entry at `k`. -/
theorem foldl_mapGet_preserve (step : List (String × QwenAccount) → QwenAccount →
      List (String × QwenAccount)) (k : String)
    (hstep : ∀ m a, a.refreshToken ≠ k → mapGet (step m a) k = mapGet m k) :
    ∀ (l : List QwenAccount) (m : List (String × QwenAccount)),
      (∀ a ∈ l, a.refreshToken ≠ k) → mapGet (l.foldl step m) k = mapGet m k := by
  intro l
  induction l with
  | nil => intro m _; rfl
  | cons c rest ih =>
      intro m hall
      rw [List.foldl_cons]
      rw [ih (step m c) (fun a ha => hall a (List.mem_cons_of_mem c ha))]
      exact hstep m c (hall c (List.mem_cons_self c rest))

/-- After the first `mergeAccounts` loop, a key uniquely owned by `a` maps
to `a`. -/
theorem foldl_insStep_found (l : List QwenAccount) :
    ∀ (m : List (String × QwenAccount)) (a : QwenAccount) (k : String),
      (l.map (fun x => x.refreshToken)).Nodup → a ∈ l → a.refreshToken = k →
      mapGet (l.foldl insStep m) k = some a := by
  induction l with
  | nil => intro m a k _ ha; simp at ha
  | cons c rest ih =>
      intro m a k hnd ha hak
      rw [List.map_cons, List.nodup_cons] at hnd
      rw [List.foldl_cons]
      rcases List.mem_cons.mp ha with hac | har
      · have hck : c.refreshToken = k := by rw [← hac, hak]
        have hrest : ∀ x ∈ rest, x.refreshToken ≠ k := by
          intro x hx hxk
          apply hnd.1
          rw [List.mem_map]
          exact ⟨x, hx, by rw [hxk, ← hck]⟩
        rw [foldl_mapGet_preserve insStep k (fun m2 a2 h2 => insStep_other m2 a2 k h2) rest
          (insStep m c) hrest]
        unfold insStep
        rw [hck, ← hac]
        exact mapGet_mapSet_self m k a
      · exact ih (insStep m c) a k hnd.2 har hak

/-- The second `mergeAccounts` loop merges the unique incoming account for a
key with the current entry. -/
theorem foldl_mergeStep_found (l : List QwenAccount) :
    ∀ (m : List (String × QwenAccount)) (b : QwenAccount) (k : String) (cur : QwenAccount),
      (l.map (fun x => x.refreshToken)).Nodup → b ∈ l → b.refreshToken = k →
      mapGet m k = some cur →
      mapGet (l.foldl mergeStep m) k =
        some { spreadAccount cur b with lastUsed := max cur.lastUsed b.lastUsed } := by
  induction l with
  | nil => intro m b k cur _ hb; simp at hb
  | cons c rest ih =>
      intro m b k cur hnd hb hbk hcur
      rw [List.map_cons, List.nodup_cons] at hnd
      rw [List.foldl_cons]
      rcases List.mem_cons.mp hb with hbc | hbr
      · have hck : c.refreshToken = k := by rw [← hbc, hbk]
        have hrest : ∀ x ∈ rest, x.refreshToken ≠ k := by
          intro x hx hxk
          apply hnd.1
          rw [List.mem_map]
          exact ⟨x, hx, by rw [hxk, ← hck]⟩
        rw [foldl_mapGet_preserve mergeStep k (fun m2 a2 h2 => mergeStep_other m2 a2 k h2) rest
          (mergeStep m c) hrest]
        unfold mergeStep
        rw [← hbc, hbk, hcur]
        exact mapGet_mapSet_self m k _
      · have hck : c.refreshToken ≠ k := by
          intro hcontra
          apply hnd.1
          rw [List.mem_map]
          exact ⟨b, hbr, by rw [hbk, ← hcontra]⟩
        exact ih (mergeStep m c) b k cur hnd.2 hbr hbk
          (by rw [mergeStep_other m c k hck]; exact hcur)

/-- Both loop steps keep an existing entry's key present. -/
theorem step_keeps_isSome (step : List (String × QwenAccount) → QwenAccount →
      List (String × QwenAccount)) (k : String)
    (hother : ∀ m a, a.refreshToken ≠ k → mapGet (step m a) k = mapGet m k)
    (hself : ∀ m a, a.refreshToken = k → (mapGet (step m a) k).isSome)
    (m : List (String × QwenAccount)) (a : QwenAccount)
    (h : (mapGet m k).isSome) : (mapGet (step m a) k).isSome := by
  by_cases hak : a.refreshToken = k
  · exact hself m a hak
  · rw [hother m a hak]; exact h

/-- Folding a step that keeps keys present preserves key presence. -/
theorem foldl_keeps_isSome (step : List (String × QwenAccount) → QwenAccount →
      List (String × QwenAccount)) (k : String)
    (hkeep : ∀ m a, (mapGet m k).isSome → (mapGet (step m a) k).isSome) :
    ∀ (l : List QwenAccount) (m : List (String × QwenAccount)),
      (mapGet m k).isSome → (mapGet (l.foldl step m) k).isSome := by
  intro l
  induction l with
  | nil => intro m h; exact h
  | cons c rest ih => intro m h; exact ih (step m c) (hkeep m c h)

/-- Folding over a list containing an account with key `k` makes `k`
present. -/
theorem foldl_reaches_isSome (step : List (String × QwenAccount) → QwenAccount →
      List (String × QwenAccount)) (k : String)
    (hkeep : ∀ m a, (mapGet m k).isSome → (mapGet (step m a) k).isSome)
    (hself : ∀ m a, a.refreshToken = k → (mapGet (step m a) k).isSome) :
    ∀ (l : List QwenAccount) (m : List (String × QwenAccount)) (b : QwenAccount),
      b ∈ l → b.refreshToken = k → (mapGet (l.foldl step m) k).isSome := by
  intro l
  induction l with
  | nil => intro m b hb; simp at hb
  | cons c rest ih =>
      intro m b hb hbk
      rw [List.foldl_cons]
      rcases List.mem_cons.mp hb with hbc | hbr
      · exact foldl_keeps_isSome step k hkeep rest (step m c)
          (hself m c (by rw [← hbc, hbk]))
      · exact ih (step m c) b hbr hbk

/-- `insStep` makes its own key present. -/
theorem insStep_self_isSome (m : List (String × QwenAccount)) (a : QwenAccount) (k : String)
    (h : a.refreshToken = k) : (mapGet (insStep m a) k).isSome := by
  unfold insStep
  rw [h, mapGet_mapSet_self]
  rfl

/-- `mergeStep` makes its own key present. -/
theorem mergeStep_self_isSome (m : List (String × QwenAccount)) (a : QwenAccount) (k : String)
    (h : a.refreshToken = k) : (mapGet (mergeStep m a) k).isSome := by
  unfold mergeStep
  split
  · rw [h, mapGet_mapSet_self]; rfl
  · rw [h, mapGet_mapSet_self]; rfl

/-- `mapSet` preserves well-keyedness when the inserted value carries its
key. -/
theorem wellKeyed_mapSet (m : List (String × QwenAccount)) (k : String) (v : QwenAccount)
    (hwk : WellKeyed m) (hv : v.refreshToken = k) : WellKeyed (mapSet m k v) := by
  unfold mapSet
  split
  · intro p hp
    rw [List.mem_map] at hp
    obtain ⟨q, hq, hqe⟩ := hp
    by_cases hqk : q.1 = k
    · rw [if_pos hqk] at hqe
      rw [← hqe]
      exact hv
    · rw [if_neg hqk] at hqe
      rw [← hqe]
      exact hwk q hq
  · intro p hp
    rcases List.mem_append.mp hp with h | h
    · exact hwk p h
    · rw [List.mem_singleton] at h
      rw [h]
      exact hv

/-- Both loop steps preserve well-keyedness. -/
theorem wellKeyed_insStep (m : List (String × QwenAccount)) (a : QwenAccount)
    (hwk : WellKeyed m) : WellKeyed (insStep m a) :=
  wellKeyed_mapSet m a.refreshToken a hwk rfl

/-- `mergeStep` preserves well-keyedness. -/
theorem wellKeyed_mergeStep (m : List (String × QwenAccount)) (a : QwenAccount)
    (hwk : WellKeyed m) : WellKeyed (mergeStep m a) := by
  unfold mergeStep
  split
  · exact wellKeyed_mapSet m a.refreshToken _ hwk rfl
  · exact wellKeyed_mapSet m a.refreshToken a hwk rfl

/-- Folding a well-keyedness-preserving step preserves well-keyedness. -/
theorem wellKeyed_foldl (step : List (String × QwenAccount) → QwenAccount →
      List (String × QwenAccount))
    (hstep : ∀ m a, WellKeyed m → WellKeyed (step m a)) :
    ∀ (l : List QwenAccount) (m : List (String × QwenAccount)),
      WellKeyed m → WellKeyed (l.foldl step m) := by
  intro l
  induction l with
  | nil => intro m h; exact h
  | cons c rest ih => intro m h; exact ih (step m c) (hstep m c h)

/-- A map entry's value is among the map's values. -/
theorem mapGet_mem_values (m : List (String × QwenAccount)) (k : String) (v : QwenAccount)
    (h : mapGet m k = some v) : v ∈ m.map (fun p => p.2) := by
  unfold mapGet at h
  cases hf : m.find? (fun p => p.1 = k) with
  | none => rw [hf] at h; simp at h
  | some p =>
      rw [hf] at h
      rw [List.mem_map]
      refine ⟨p, List.mem_of_find?_eq_some hf, ?_⟩
      simpa using h

/-- In a well-keyed map the fetched value carries the queried key. -/
theorem mapGet_key (m : List (String × QwenAccount)) (k : String) (v : QwenAccount)
    (hwk : WellKeyed m) (h : mapGet m k = some v) : v.refreshToken = k := by
  unfold mapGet at h
  cases hf : m.find? (fun p => p.1 = k) with
  | none => rw [hf] at h; simp at h
  | some p =>
      rw [hf] at h
      have hp1 : p.1 = k := by simpa using List.find?_some hf
      have hp2 : p.2 = v := by simpa using h
      rw [← hp2, hwk p (List.mem_of_find?_eq_some hf), hp1]

/-- A final-map entry with a non-empty key survives into the merged,
normalized account list. -/
theorem mergeAccounts_entry (existing incoming : AccountStorage) (k : String) (v : QwenAccount)
    (hk : k ≠ "")
    (hget : mapGet (incoming.accounts.foldl mergeStep (existing.accounts.foldl insStep [])) k =
      some v) :
    v ∈ (mergeAccounts existing incoming).accounts ∧ v.refreshToken = k := by
  have hwk : WellKeyed (incoming.accounts.foldl mergeStep
      (existing.accounts.foldl insStep [])) :=
    wellKeyed_foldl mergeStep wellKeyed_mergeStep incoming.accounts _
      (wellKeyed_foldl insStep wellKeyed_insStep existing.accounts []
        (fun p hp => absurd hp (List.not_mem_nil p)))
  have hkey : v.refreshToken = k := mapGet_key _ _ _ hwk hget
  have hmem := mapGet_mem_values _ _ _ hget
  refine ⟨?_, hkey⟩
  show v ∈ (normalizeStorage
    { version := 1,
      accounts := (incoming.accounts.foldl mergeStep
        (existing.accounts.foldl insStep [])).map (fun p => p.2),
      activeIndex := incoming.activeIndex }).accounts
  unfold normalizeStorage
  dsimp only
  rw [List.mem_filter]
  exact ⟨hmem, by simp [hkey, hk]⟩

/-- A non-empty key present in either side of a merge is present in the
merged account list. -/
theorem mergeAccounts_key_present (existing incoming : AccountStorage) (k : String)
    (hk : k ≠ "")
    (h : (∃ a ∈ existing.accounts, a.refreshToken = k) ∨
      ∃ b ∈ incoming.accounts, b.refreshToken = k) :
    ∃ c ∈ (mergeAccounts existing incoming).accounts, c.refreshToken = k := by
  have hkeepIns : ∀ m a, (mapGet m k).isSome → (mapGet (insStep m a) k).isSome :=
    step_keeps_isSome insStep k (fun m a h2 => insStep_other m a k h2)
      (fun m a h2 => insStep_self_isSome m a k h2)
  have hkeepMerge : ∀ m a, (mapGet m k).isSome → (mapGet (mergeStep m a) k).isSome :=
    step_keeps_isSome mergeStep k (fun m a h2 => mergeStep_other m a k h2)
      (fun m a h2 => mergeStep_self_isSome m a k h2)
  have hsome : (mapGet (incoming.accounts.foldl mergeStep
      (existing.accounts.foldl insStep [])) k).isSome := by
    rcases h with ⟨a, ha, hak⟩ | ⟨b, hb, hbk⟩
    · exact foldl_keeps_isSome mergeStep k hkeepMerge incoming.accounts _
        (foldl_reaches_isSome insStep k hkeepIns
          (fun m a2 h2 => insStep_self_isSome m a2 k h2) existing.accounts [] a ha hak)
    · exact foldl_reaches_isSome mergeStep k hkeepMerge
        (fun m a2 h2 => mergeStep_self_isSome m a2 k h2) incoming.accounts _ b hb hbk
  cases hv : mapGet (incoming.accounts.foldl mergeStep
      (existing.accounts.foldl insStep [])) k with
  | none => rw [hv] at hsome; simp at hsome
  | some v =>
      obtain ⟨hmem, hkey⟩ := mergeAccounts_entry existing incoming k v hk hv
      exact ⟨v, hmem, hkey⟩

/-- Claim C4: merge is keyed by `refreshToken`; a key present in both sides
merges to the incoming account's fields with `lastUsed` the maximum of the
two; and two storages derived from the same base, each adding one new
account with a distinct non-empty `refreshToken`, saved sequentially
(merge-on-save), yield a store containing both new accounts. -/
theorem mergeAccounts_spec :
    (∀ (existing incoming : AccountStorage) (k : String) (a b : QwenAccount),
      (existing.accounts.map (fun x => x.refreshToken)).Nodup →
      (incoming.accounts.map (fun x => x.refreshToken)).Nodup →
      k ≠ "" → a ∈ existing.accounts → a.refreshToken = k →
      b ∈ incoming.accounts → b.refreshToken = k →
      { spreadAccount a b with lastUsed := max a.lastUsed b.lastUsed } ∈
        (mergeAccounts existing incoming).accounts) ∧
    (∀ (base s1 s2 : AccountStorage) (A B : QwenAccount),
      s1.accounts = base.accounts ++ [A] → s2.accounts = base.accounts ++ [B] →
      A.refreshToken ≠ "" → B.refreshToken ≠ "" → A.refreshToken ≠ B.refreshToken →
      (∃ cA ∈ (mergeAccounts (mergeAccounts base s1) s2).accounts,
        cA.refreshToken = A.refreshToken) ∧
      ∃ cB ∈ (mergeAccounts (mergeAccounts base s1) s2).accounts,
        cB.refreshToken = B.refreshToken) := by
  constructor
  · intro existing incoming k a b hnd1 hnd2 hk ha hak hb hbk
    have hm0 : mapGet (existing.accounts.foldl insStep []) k = some a :=
      foldl_insStep_found existing.accounts [] a k hnd1 ha hak
    have hm1 : mapGet (incoming.accounts.foldl mergeStep
        (existing.accounts.foldl insStep [])) k =
        some { spreadAccount a b with lastUsed := max a.lastUsed b.lastUsed } :=
      foldl_mergeStep_found incoming.accounts _ b k a hnd2 hb hbk hm0
    exact (mergeAccounts_entry existing incoming k _ hk hm1).1
  · intro base s1 s2 A B hs1 hs2 hA hB hAB
    have hAin1 : ∃ c ∈ (mergeAccounts base s1).accounts, c.refreshToken = A.refreshToken := by
      apply mergeAccounts_key_present base s1 A.refreshToken hA
      right
      exact ⟨A, by rw [hs1]; exact List.mem_append_right _ (List.mem_singleton_self A), rfl⟩
    constructor
    · apply mergeAccounts_key_present (mergeAccounts base s1) s2 A.refreshToken hA
      left
      exact hAin1
    · apply mergeAccounts_key_present (mergeAccounts base s1) s2 B.refreshToken hB
      right
      exact ⟨B, by rw [hs2]; exact List.mem_append_right _ (List.mem_singleton_self B), rfl⟩

/-- Claim C4 witness: a shared key merges to the incoming fields with the
larger `lastUsed`. -/
theorem mergeAccounts_spec_witness :
    { spreadAccount { refreshToken := "k", addedAt := 0, lastUsed := 1 }
        { refreshToken := "k", addedAt := 2, lastUsed := 3 } with
      lastUsed := max (1 : ℚ) 3 } ∈
      (mergeAccounts
        { version := 1, accounts := [{ refreshToken := "k", addedAt := 0, lastUsed := 1 }],
          activeIndex := 0 }
        { version := 1, accounts := [{ refreshToken := "k", addedAt := 2, lastUsed := 3 }],
          activeIndex := 0 }).accounts :=
  mergeAccounts_spec.1
    { version := 1, accounts := [{ refreshToken := "k", addedAt := 0, lastUsed := 1 }],
      activeIndex := 0 }
    { version := 1, accounts := [{ refreshToken := "k", addedAt := 2, lastUsed := 3 }],
      activeIndex := 0 }
    "k"
    { refreshToken := "k", addedAt := 0, lastUsed := 1 }
    { refreshToken := "k", addedAt := 2, lastUsed := 3 }
    (by decide) (by decide) (by decide)
    (List.mem_singleton_self _) rfl (List.mem_singleton_self _) rfl

/-- Claim C2 (hybrid branch modelled from the spec; `selectHybridAccount`
and `consume` are from `src/plugin/rotation.ts`): for a storage with at
least one account, a successful hybrid selection is the `selectHybridAccount`
result over the metrics list rotated by `pidOffset mod N`, and one token is
consumed from the winning account's bucket before returning. -/
theorem selectAccountHybrid_spec (storage : AccountStorage) (health : HealthScoreTracker)
    (tokens : TokenBucketTracker) (pidOffset : Nat) (now : ℚ) (res : HybridDispatchResult)
    (hres : selectAccountHybrid storage health tokens pidOffset now = some res) :
    (∃ r, selectHybridAccount
        (rotateList (buildMetrics storage health tokens now)
          (pidOffset % storage.accounts.length))
        health.config.minUsable tokens.config.maxTokens now = some r ∧
      res.index = r.index) ∧
    storage.accounts.get? res.index = some res.account ∧
    res.tokenTracker = (tokens.consume now res.index 1).2 ∧
    (1 ≤ tokens.getTokens now res.index →
      res.tokenTracker.getTokens now res.index =
        min tokens.config.maxTokens (tokens.getTokens now res.index - 1)) := by
  unfold selectAccountHybrid at hres
  dsimp only at hres
  split at hres
  · exact absurd hres (by simp)
  · split at hres
    · exact absurd hres (by simp)
    · rename_i r hr
      split at hres
      · exact absurd hres (by simp)
      · rename_i account hget
        rw [Option.some_inj] at hres
        rw [← hres]
        refine ⟨⟨r, hr, rfl⟩, hget, rfl, ?_⟩
        intro hbal
        exact getTokens_after_consume tokens now r.index 1 (not_lt.2 hbal)

/-- Claim C2 witness: a one-account storage with fresh default trackers
selects index 0. -/
theorem selectAccountHybrid_spec_witness :
    ({ version := 1, accounts := [{ refreshToken := "r", addedAt := 0, lastUsed := 0 }],
        activeIndex := 0 } : AccountStorage).accounts.get? 0 =
      some { refreshToken := "r", addedAt := 0, lastUsed := 0 } :=
  (selectAccountHybrid_spec
    { version := 1, accounts := [{ refreshToken := "r", addedAt := 0, lastUsed := 0 }],
      activeIndex := 0 }
    (HealthScoreTracker.mk0 DEFAULT_HEALTH_SCORE_CONFIG)
    (TokenBucketTracker.mk0 DEFAULT_TOKEN_BUCKET_CONFIG)
    0 0
    { account := { refreshToken := "r", addedAt := 0, lastUsed := 0 }, index := 0,
      tokenTracker :=
        ((TokenBucketTracker.mk0 DEFAULT_TOKEN_BUCKET_CONFIG).consume 0 0 1).2 }
    rfl).2.1
